import Mathlib

/-!
Verification of the GitGuard pattern-matching and rule-resolution core.

Strings are modelled as lists of characters.  Each definition mirrors one
function of the TypeScript source: the staged-file scanner matcher
(CommitScanner.matchesPattern with CommitScanner.globToRegex), the file
watcher matcher (FileWatcher.matchesPattern), the rule engine matcher
(RuleEngine.matchesPattern with RuleEngine.globToRegex), the gitignore
handler (GitIgnoreHandler.addPatterns and friends), the rule aggregation
(RuleEngine.getRulesForDetections), the detector deduplications
(NodeDetector.deduplicateDetections, JavaDetector.deduplicateByProximity),
the node detector (NodeDetector.detect) and the debounced event batching
(FileWatcher.queueNotification / processPendingNotifications).
-/

open scoped List

namespace GitGuard

/-- Strip one trailing slash, modelling the JS replace of a final slash
with the empty string as done by every matcher to normalize a pattern. -/
def stripOneSlash (p : List Char) : List Char :=
  if p.getLast? = some '/' then p.dropLast else p

/-- Substring test, modelling the JS String.includes method. -/
def containsSub (hay needle : List Char) : Bool :=
  hay.tails.any (fun t => needle.isPrefixOf t)

/-- Regex atoms produced by the glob translations of the source.  A literal
character, the regex dot (any single character), the token produced for a
single star (any run of characters other than the path separator), and the
token dot-star (any run of characters). -/
inductive RAtom where
  | lit (c : Char)
  | anyChar
  | starNonSlash
  | starAny
deriving DecidableEq, Repr

/-- Whether a regex (a sequence of atoms) accepts the empty string. -/
def nullable : List RAtom → Bool
  | [] => true
  | .lit _ :: _ => false
  | .anyChar :: _ => false
  | .starNonSlash :: rest => nullable rest
  | .starAny :: rest => nullable rest

/-- Brzozowski-style derivative of a regex by one character: the list of
alternative residual regexes after consuming the character. -/
def deriv1 : List RAtom → Char → List (List RAtom)
  | [], _ => []
  | .lit d :: rest, c => if d = c then [rest] else []
  | .anyChar :: rest, _ => [rest]
  | .starNonSlash :: rest, c =>
      (if c = '/' then [] else [RAtom.starNonSlash :: rest]) ++ deriv1 rest c
  | .starAny :: rest, c => (RAtom.starAny :: rest) :: deriv1 rest c

/-- One step of the derivative automaton over a set of residual regexes. -/
def derivStep (states : List (List RAtom)) (c : Char) : List (List RAtom) :=
  (states.map (fun a => deriv1 a c)).flatten

/-- Anchored (whole-string) regex match, by running the derivative
automaton over the string. -/
def rmatch (atoms : List RAtom) (str : List Char) : Bool :=
  (str.foldl derivStep [atoms]).any nullable

/-- Unanchored regex search, modelling the JS RegExp.test of a regex with
no anchors: some substring matches. -/
def reSearch (atoms : List RAtom) (str : List Char) : Bool :=
  str.tails.any (fun t => t.inits.any (fun p => rmatch atoms p))

/-- Search for a regex wrapped as in the file watcher, start-of-string or
after a slash, and anchored at the end: the whole string matches, or the
part after some slash matches. -/
def segTest (atoms : List RAtom) (str : List Char) : Bool :=
  rmatch atoms str ||
    str.tails.any (fun t =>
      match t with
      | '/' :: t2 => rmatch atoms t2
      | _ => false)

/-- Glob translation of CommitScanner.globToRegex.  The source escapes
dots, then replaces every two adjacent stars with a dot and a star, then
replaces every remaining star with a bracket class excluding the slash,
then replaces question marks with dots, and wraps the result in
whole-string anchors.  Because the later replacements also rewrite the
star emitted for a double star, a double star yields one any-character
atom followed by a non-slash run.  The translation is faithful for
patterns built from ordinary path characters, stars, dots and question
marks (no other regex metacharacters). -/
def scannerGlobCompile : List Char → List RAtom
  | [] => []
  | '*' :: '*' :: rest => .anyChar :: .starNonSlash :: scannerGlobCompile rest
  | '*' :: rest => .starNonSlash :: scannerGlobCompile rest
  | '?' :: rest => .anyChar :: scannerGlobCompile rest
  | c :: rest => .lit c :: scannerGlobCompile rest

/-- Glob translation of the glob branch of FileWatcher.matchesPattern.
Same sequential replacements as the scanner but with no question-mark
handling, and the result is wrapped as start-or-slash plus end anchor.
Faithful for patterns built from ordinary path characters, stars and dots. -/
def watcherGlobCompile : List Char → List RAtom
  | [] => []
  | '*' :: '*' :: rest => .anyChar :: .starNonSlash :: watcherGlobCompile rest
  | '*' :: rest => .starNonSlash :: watcherGlobCompile rest
  | c :: rest => .lit c :: watcherGlobCompile rest

/-- Glob translation of RuleEngine.globToRegex.  Dots are escaped, every
single star becomes dot-star, question marks become dots, and no anchors
are added.  Faithful for patterns built from ordinary path characters,
stars, dots and question marks. -/
def ruleGlobCompile : List Char → List RAtom
  | [] => []
  | '*' :: rest => .starAny :: ruleGlobCompile rest
  | '?' :: rest => .anyChar :: ruleGlobCompile rest
  | c :: rest => .lit c :: ruleGlobCompile rest

/-- Matcher of CommitScanner.matchesPattern: exact file name, exact path,
directory prefix, directory containment, then the glob branch, then the
special case for the env-file family. -/
def scannerMatchesPattern (fullPath fileName pattern : List Char) : Bool :=
  let np := stripOneSlash pattern
  if fileName = np then true
  else if fullPath = np then true
  else if (np ++ ['/']).isPrefixOf fullPath then true
  else if containsSub fullPath ('/' :: (np ++ ['/'])) then true
  else if pattern.contains '*' then
    rmatch (scannerGlobCompile pattern) fileName ||
      rmatch (scannerGlobCompile pattern) fullPath
  else if pattern = ".env".data ∧
      (fileName = ".env".data ∨ (".env.".data).isPrefixOf fileName) then true
  else false

/-- Matcher of FileWatcher.matchesPattern: exact file name, the env-file
family special case, directory containment, directory prefix, then the
glob branch with the start-or-slash wrapped regex tested against the full
path and then the file name. -/
def watcherMatchesPattern (fullPath fileName pattern : List Char) : Bool :=
  let np := stripOneSlash pattern
  if fileName = np then true
  else if np = ".env".data ∧
      (fileName = ".env".data ∨ (".env.".data).isPrefixOf fileName) then true
  else if containsSub fullPath ('/' :: (np ++ ['/'])) then true
  else if (np ++ ['/']).isPrefixOf fullPath then true
  else if pattern.contains '*' then
    segTest (watcherGlobCompile pattern) fullPath ||
      segTest (watcherGlobCompile pattern) fileName
  else false

/-- Matcher of RuleEngine.matchesPattern: exact file name, bare substring
containment of the normalized pattern in the path, then the unanchored
glob branch, then the trailing-slash directory branch. -/
def ruleMatchesPattern (fullPath fileName pattern : List Char) : Bool :=
  let np := stripOneSlash pattern
  if fileName = np then true
  else if containsSub fullPath np then true
  else if pattern.contains '*' then
    reSearch (ruleGlobCompile pattern) fileName ||
      reSearch (ruleGlobCompile pattern) fullPath
  else if pattern.getLast? = some '/' then
    containsSub fullPath ('/' :: (np ++ ['/'])) ||
      (np ++ ['/']).isPrefixOf fullPath
  else false

/-- Base name of a path: the segment after the last slash. -/
def basename (p : List Char) : List Char :=
  ((p.splitOn '/').getLast?).getD p

/-- Matcher that claim C2 describes, written from the claim text: a
star-free pattern matches exactly when the base name equals the pattern,
or the path contains the pattern between slashes, or the path starts with
the pattern followed by a slash. -/
def claimedStarFreeMatch (fullPath pattern : List Char) : Bool :=
  decide (basename fullPath = pattern) ||
    containsSub fullPath ('/' :: (pattern ++ ['/'])) ||
    (pattern ++ ['/']).isPrefixOf fullPath

/-- Glob translation that claim C3 describes, written from the claim text:
dots are escaped, a double star becomes a wildcard that crosses path
separators, a single star a wildcard confined to one segment. -/
def claimedGlobCompile : List Char → List RAtom
  | [] => []
  | '*' :: '*' :: rest => .starAny :: claimedGlobCompile rest
  | '*' :: rest => .starNonSlash :: claimedGlobCompile rest
  | c :: rest => .lit c :: claimedGlobCompile rest

/-- Glob matcher that claim C3 describes: the compiled regex is tested
anchored against the base name and the full relative path, and the file
matches when either test succeeds. -/
def claimedGlobMatch (fullPath fileName pattern : List Char) : Bool :=
  rmatch (claimedGlobCompile pattern) fileName ||
    rmatch (claimedGlobCompile pattern) fullPath

/-- Severity levels of a gitignore rule, from the type definitions module. -/
inductive RuleSeverity where
  | critical
  | recommended
  | optional
deriving DecidableEq, Repr

/-- A gitignore rule with its pattern, severity and reason, from the type
definitions module. -/
structure GitIgnoreRule where
  pattern : List Char
  severity : RuleSeverity
  reason : List Char
deriving DecidableEq, Repr

/-- Result record of a gitignore modification, from the type definitions
module.  The file-path field of the source record is workspace plumbing
and is left out of the model. -/
structure GitIgnoreModificationResult where
  success : Bool
  addedPatterns : List (List Char)
  existingPatterns : List (List Char)
  error : Option (List Char)
deriving DecidableEq, Repr

/-- Whitespace as trimmed by the JS String.trim method, restricted to the
characters that can occur in our content model. -/
def isWs (c : Char) : Bool :=
  c = ' ' ∨ c = '\t' ∨ c = '\n' ∨ c = '\r'

/-- Trim, modelling the JS String.trim method. -/
def jsTrim (l : List Char) : List Char :=
  ((l.dropWhile isWs).reverse.dropWhile isWs).reverse

/-- Pattern normalization of GitIgnoreHandler.normalizePattern: trim, then
strip every trailing slash. -/
def normalizePattern (p : List Char) : List Char :=
  ((jsTrim p).reverse.dropWhile (fun c => c = '/')).reverse

/-- Split a text into its lines at newline characters, modelling the JS
String.split on a newline.  An empty text has one empty line, and a
trailing newline yields a final empty line, as in JS. -/
def splitNl : List Char → List (List Char)
  | [] => [[]]
  | c :: cs =>
      if c = '\n' then [] :: splitNl cs
      else (c :: (splitNl cs).headI) :: (splitNl cs).tail

/-- Join lines with newline separators, modelling the JS Array.join with a
newline. -/
def joinNl : List (List Char) → List Char
  | [] => []
  | [l] => l
  | l :: ls => l ++ '\n' :: joinNl ls

/-- Patterns parsed from a gitignore content by
GitIgnoreHandler.getExistingPatterns: per line, trim, skip blank lines and
comment lines, normalize the rest.  The source collects them into a set;
the model keeps the list, and only membership is ever used. -/
def parsedPatterns (content : List Char) : List (List Char) :=
  (splitNl content).filterMap (fun line =>
    let t := jsTrim line
    if t = [] then none
    else if t.head? = some '#' then none
    else some (normalizePattern t))

/-- Existing patterns of the ignore file, modelling
GitIgnoreHandler.getExistingPatterns over the read result: a missing or
empty file yields no patterns. -/
def existingPatternsOf (fs : Option (List Char)) : List (List Char) :=
  match fs with
  | none => []
  | some c => parsedPatterns c

/-- Lines appended for one rule by GitIgnoreHandler.addPatterns: the
reason as a comment line when the rule is critical, then the raw pattern. -/
def ruleLines (r : GitIgnoreRule) : List (List Char) :=
  (if r.severity = RuleSeverity.critical then ["# ".data ++ r.reason] else [])
    ++ [r.pattern]

/-- Header comment line of GitIgnoreHandler.addPatterns, optionally naming
the triggering framework. -/
def headerLine (frameworkName : Option (List Char)) : List Char :=
  match frameworkName with
  | some n => "# Added by GitGuard (".data ++ n ++ ")".data
  | none => "# Added by GitGuard".data

/-- Ensure a content ends with a trailing newline as
GitIgnoreHandler.addPatterns does before appending: a newline is added
when the content is non-empty and does not already end with one. -/
def ensureNl (c : List Char) : List Char :=
  if c ≠ [] ∧ c.getLast? ≠ some '\n' then c ++ ['\n'] else c

/-- The append-only gitignore update of GitIgnoreHandler.addPatterns.  The
file system is a single optional content; writeErr injects the write
failure of the catch branch (the thrown message).  Returns the structured
result and the content after the call.  Rules whose normalized pattern is
already present are only reported; if nothing is to be added the function
returns before reading or writing.  Otherwise the current content (empty
when the file is absent) gets a trailing newline if it lacks one, a blank
separator line if it has non-blank content, the header, and the rule
lines, joined by newlines and terminated by a final newline. -/
def addPatterns (fs : Option (List Char)) (writeErr : Option (List Char))
    (rules : List GitIgnoreRule) (frameworkName : Option (List Char)) :
    GitIgnoreModificationResult × Option (List Char) :=
  let existing := existingPatternsOf fs
  let toAdd := rules.filter (fun r => normalizePattern r.pattern ∉ existing)
  let already :=
    (rules.filter (fun r => normalizePattern r.pattern ∈ existing)).map
      (fun r => r.pattern)
  if toAdd = [] then
    (⟨true, [], already, none⟩, fs)
  else
    match writeErr with
    | some msg => (⟨false, [], already, some msg⟩, fs)
    | none =>
        let cur := fs.getD []
        let cur2 := ensureNl cur
        let sep : List (List Char) := if jsTrim cur2 ≠ [] then [[]] else []
        let newLines :=
          sep ++ [headerLine frameworkName] ++ toAdd.flatMap ruleLines
        let newContent := cur2 ++ joinNl newLines ++ ['\n']
        (⟨true, toAdd.map (fun r => r.pattern), already, none⟩,
          some newContent)

/-- A detected framework, from the type definitions module.  Identifiers,
names, paths and rule categories are strings.  The confidence is stored in
hundredths of the source's unit scale (0.8 becomes 80, 0.95 becomes 95):
every confidence the detectors manipulate is an exact multiple of 0.05
whose float arithmetic in the source is exact, so this scaling is an
order-isomorphic exact embedding of the source values. -/
structure DetectedFramework where
  id : List Char
  name : List Char
  detectedAt : List Char
  confidence : Nat
  ruleCategory : List Char
deriving DecidableEq, Repr

/-- Update an association-style list keyed by framework id as the JS Map
does: an existing key keeps its position when its value is replaced, a new
key is appended at the end. -/
def replaceById (m : List DetectedFramework) (d : DetectedFramework) :
    List DetectedFramework :=
  m.map (fun x => if x.id = d.id then d else x)

/-- One upsert step of the id-keyed deduplication maps both detector
deduplications share: a new id is appended, and an existing entry is
replaced in place exactly when the replacement test repl holds of the
kept entry and the new detection. -/
def keyedStep (repl : DetectedFramework → DetectedFramework → Bool)
    (m : List DetectedFramework) (d : DetectedFramework) :
    List DetectedFramework :=
  match m.find? (fun x => x.id = d.id) with
  | none => m ++ [d]
  | some e => if repl e d then replaceById m d else m

/-- Replacement test of NodeDetector.deduplicateDetections: the new
detection wins only on strictly higher confidence. -/
def nodeRepl (e d : DetectedFramework) : Bool :=
  e.confidence < d.confidence

/-- NodeDetector.deduplicateDetections over a detection list. -/
def nodeDedup (ds : List DetectedFramework) : List DetectedFramework :=
  ds.foldl (keyedStep nodeRepl) []

/-- Number of path segments of a detection source path, modelling the JS
split on the path separator: one more segment than separators. -/
def segCount (p : List Char) : ℕ :=
  (p.splitOn '/').length

/-- Replacement test of JavaDetector.deduplicateByProximity: the new
detection wins only with strictly fewer path segments; confidence is not
consulted. -/
def javaRepl (e d : DetectedFramework) : Bool :=
  segCount d.detectedAt < segCount e.detectedAt

/-- JavaDetector.deduplicateByProximity over a detection list. -/
def javaDedup (ds : List DetectedFramework) : List DetectedFramework :=
  ds.foldl (keyedStep javaRepl) []

/-- One accumulation step of the winner among detections sharing an id:
the pending winner is replaced exactly when the replacement test holds. -/
def pickStep (repl : DetectedFramework → DetectedFramework → Bool)
    (acc : Option DetectedFramework) (d : DetectedFramework) :
    Option DetectedFramework :=
  match acc with
  | none => some d
  | some e => if repl e d then some d else some e

/-- Winner of a detection list under a replacement test, used to state
what the keyed deduplications keep per id. -/
def pickBy (repl : DetectedFramework → DetectedFramework → Bool)
    (l : List DetectedFramework) : Option DetectedFramework :=
  l.foldl (pickStep repl) none

/-- One framework signature of NodeDetector.frameworkPatterns. -/
structure FrameworkPattern where
  id : List Char
  name : List Char
  deps : List (List Char)
  configFiles : List (List Char)
  confidence : Nat
deriving DecidableEq, Repr

/-- The framework signature table of NodeDetector.frameworkPatterns, in
declaration order. -/
def frameworkPatterns : List FrameworkPattern :=
  [⟨"nextjs".data, "Next.js".data, ["next".data],
      ["next.config.js".data, "next.config.mjs".data, "next.config.ts".data],
      95⟩,
   ⟨"angular".data, "Angular".data, ["@angular/core".data],
      ["angular.json".data], 95⟩,
   ⟨"vue".data, "Vue".data, ["vue".data],
      ["vue.config.js".data, "vite.config.ts".data, "nuxt.config.js".data],
      90⟩,
   ⟨"svelte".data, "Svelte".data, ["svelte".data],
      ["svelte.config.js".data], 95⟩,
   ⟨"vite".data, "Vite".data, ["vite".data],
      ["vite.config.js".data, "vite.config.ts".data], 90⟩,
   ⟨"react".data, "React".data, ["react".data, "react-dom".data],
      [], 85⟩]

/-- Directory part of a relative path, modelling path.dirname: the part
before the last slash, or a dot when there is no slash. -/
def pathDirname (p : List Char) : List Char :=
  match (p.splitOn '/').dropLast with
  | [] => ".".data
  | segs => List.intercalate ['/'] segs

/-- Join a directory and a file name, modelling path.join on the relative
paths the node detector builds: joining with the dot directory yields the
bare file name. -/
def pathJoin (dir f : List Char) : List Char :=
  if dir = ".".data then f else dir ++ ['/'] ++ f

/-- Detection emitted by BaseDetector.createDetection for the node
detector, whose rule category is the node category. -/
def mkNodeDetection (id name detectedAt : List Char) (confidence : Nat) :
    DetectedFramework :=
  ⟨id, name, detectedAt, confidence, "node".data⟩

/-- Detections contributed by one parsed package manifest in
NodeDetector.detect: the base node detection at confidence 0.8 (80 in
the scaled model), then one detection per signature whose required
dependency is declared, with a 0.05 confidence boost capped at 1.0 (five
hundredths capped at 100) when the first listed config file exists next
to the manifest. -/
def detectForManifest (fileExists : List Char → Bool)
    (relativePath : List Char) (deps : List (List Char)) :
    List DetectedFramework :=
  let relativeDir := pathDirname relativePath
  mkNodeDetection "node".data "Node.js".data relativePath 80 ::
    frameworkPatterns.foldl (fun acc fw =>
      if fw.deps.any (fun dep => dep ∈ deps) then
        let conf :=
          match fw.configFiles.find? (fun cf => fileExists (pathJoin relativeDir cf)) with
          | some _ => min 100 (fw.confidence + 5)
          | none => fw.confidence
        acc ++ [mkNodeDetection fw.id fw.name relativePath conf]
      else acc) []

/-- NodeDetector.detect over the workspace probe results: manifests is the
list of package manifest paths with their parse result (the declared
dependency names, or none for an unreadable or unparsable file, which the
source skips), and fileExists is the workspace existence probe.  The
collected detections are deduplicated keeping the highest confidence. -/
def nodeDetect (manifests : List (List Char × Option (List (List Char))))
    (fileExists : List Char → Bool) : List DetectedFramework :=
  nodeDedup <| manifests.foldl (fun acc m =>
    match m.2 with
    | none => acc
    | some deps => acc ++ detectForManifest fileExists m.1 deps) []

/-- The rule catalog of the rule engine, modelled as the two lookups the
source performs.  The JSON rule-set data files are not part of the
analysed sources; per the spec the catalog is per-ecosystem base rules
plus per-framework rule lists, with absent entries yielding the empty
list, so the catalog is kept as a parameter. -/
structure Catalog where
  baseRules : List Char → List GitIgnoreRule
  frameworkRules : List Char → List Char → List GitIgnoreRule

/-- Grouping of detections by rule category as in
RuleEngine.getRulesForDetections: a JS Map from category to the list of
its detections, in order of first appearance, each group in input order. -/
def groupByCategory (ds : List DetectedFramework) :
    List (List Char × List DetectedFramework) :=
  ds.foldl (fun m d =>
    if m.any (fun p => p.1 = d.ruleCategory) then
      m.map (fun p => if p.1 = d.ruleCategory then (p.1, p.2 ++ [d]) else p)
    else m ++ [(d.ruleCategory, [d])]) []

/-- Push the rules of one list onto the accumulator, skipping any rule
whose pattern was already emitted, as the inner loops of
RuleEngine.getRulesForDetections do with the seen-pattern set. -/
def pushRules (st : List GitIgnoreRule × List (List Char))
    (rs : List GitIgnoreRule) : List GitIgnoreRule × List (List Char) :=
  rs.foldl (fun st2 r =>
    if r.pattern ∈ st2.2 then st2 else (st2.1 ++ [r], st2.2 ++ [r.pattern])) st

/-- RuleEngine.getRulesForDetections: group detections by category, then
per category append the base rules and then each detection's framework
rules, skipping patterns already emitted. -/
def getRulesForDetections (cat : Catalog) (ds : List DetectedFramework) :
    List GitIgnoreRule :=
  ((groupByCategory ds).foldl (fun st g =>
    g.2.foldl (fun st2 d => pushRules st2 (cat.frameworkRules g.1 d.id))
      (pushRules st (cat.baseRules g.1))) ([], [])).1

/-- Deduplication by first occurrence of a pattern, used to state what the
seen-pattern filtering computes. -/
def dedupByPattern : List GitIgnoreRule → List (List Char) → List GitIgnoreRule
  | [], _ => []
  | r :: rs, seen =>
      if r.pattern ∈ seen then dedupByPattern rs seen
      else r :: dedupByPattern rs (seen ++ [r.pattern])

/-- The rule stream of RuleEngine.getRulesForDetections before
deduplication: per category in first-appearance order, the base rules then
each detection's framework rules in detection order. -/
def ruleStream (cat : Catalog) (ds : List DetectedFramework) :
    List GitIgnoreRule :=
  (groupByCategory ds).flatMap (fun g =>
    cat.baseRules g.1 ++ g.2.flatMap (fun d => cat.frameworkRules g.1 d.id))

/-- A pending risky-file event of the file watcher, from the type
definitions module.  The event type field is always the created kind for
the creation watcher and is omitted. -/
structure RiskyFileEvent where
  filePath : List Char
  matchedPattern : List Char
  rule : GitIgnoreRule
deriving DecidableEq, Repr

/-- Upsert into the pending-notification map of
FileWatcher.queueNotification, keyed by file path: an existing path keeps
its position and takes the new event, a new path is appended. -/
def upsertPending (m : List (List Char × RiskyFileEvent))
    (e : RiskyFileEvent) : List (List Char × RiskyFileEvent) :=
  if m.any (fun p => p.1 = e.filePath) then
    m.map (fun p => if p.1 = e.filePath then (p.1, e) else p)
  else m ++ [(e.filePath, e)]

/-- Debounced batching of FileWatcher.queueNotification and
FileWatcher.processPendingNotifications on a logical clock.  Inputs are
time-stamped qualifying events in arrival order.  Each event first lets an
armed timer whose deadline has passed fire (flushing the pending map as
one batch), then is upserted, and the single timer is re-armed to the
event time plus the debounce delay.  After the last event the armed timer
fires and flushes what is pending; a flush of an empty map emits nothing. -/
def runBatcher (delay : Nat) :
    List (Nat × RiskyFileEvent) → List (List Char × RiskyFileEvent) →
      Option Nat → List (List RiskyFileEvent)
  | [], pending, _ =>
      if pending = [] then [] else [pending.map (fun p => p.2)]
  | (t, e) :: rest, pending, deadline =>
      let fires : Bool := match deadline with
        | some d => decide (d ≤ t)
        | none => false
      if fires then
        (if pending = [] then [] else [pending.map (fun p => p.2)]) ++
          runBatcher delay rest (upsertPending [] e) (some (t + delay))
      else
        runBatcher delay rest (upsertPending pending e) (some (t + delay))

/-- The batching pipeline started with no pending events and no armed
timer.  The debounce delay of the source is 500 milliseconds. -/
def batcherFlushes (delay : Nat) (events : List (Nat × RiskyFileEvent)) :
    List (List RiskyFileEvent) :=
  runBatcher delay events [] none

/-- Burst shape of an event schedule: arrival times are non-decreasing and
each gap between consecutive events is strictly shorter than the delay. -/
def tightChain (delay : Nat) : List (Nat × RiskyFileEvent) → Bool
  | [] => true
  | [_] => true
  | (t1, _) :: (t2, e2) :: rest =>
      decide (t1 ≤ t2) && decide (t2 < t1 + delay) &&
        tightChain delay ((t2, e2) :: rest)

/-- Example rule for the dependency directory. -/
def exRuleNodeModules : GitIgnoreRule :=
  ⟨"node_modules".data, .recommended, "Dependency directory".data⟩

/-- Example critical rule for env files. -/
def exRuleEnv : GitIgnoreRule :=
  ⟨".env".data, .critical, "Environment secrets".data⟩

/-- Example rule whose pattern starts with the comment character, so the
written pattern line is parsed back as a comment. -/
def exRuleHash : GitIgnoreRule :=
  ⟨"#tag".data, .recommended, "Pathological pattern".data⟩

/-- Example pending event for an env file. -/
def exEventEnv : RiskyFileEvent := ⟨".env".data, ".env".data, exRuleEnv⟩

/-- Example pending event for a database file. -/
def exEventDb : RiskyFileEvent :=
  ⟨"db.sqlite3".data, "db.sqlite3".data,
    ⟨"db.sqlite3".data, .critical, "Database file".data⟩⟩

/-- Gradle detection at the workspace root with confidence 0.85. -/
def exGradleNear : DetectedFramework :=
  ⟨"gradle".data, "Gradle".data, "build.gradle".data, 85, "java".data⟩

/-- Gradle detection in a subdirectory with confidence 0.9. -/
def exGradleDeep : DetectedFramework :=
  ⟨"gradle".data, "Gradle".data, "sub/build.gradle".data, 90, "java".data⟩

/-- React detection in a nested package with confidence 0.9. -/
def exReactDeep : DetectedFramework :=
  ⟨"react".data, "React".data, "a/b/package.json".data, 90, "node".data⟩

/-- React detection at the workspace root with confidence 0.9. -/
def exReactNear : DetectedFramework :=
  ⟨"react".data, "React".data, "package.json".data, 90, "node".data⟩

/-- Python base detection. -/
def exPythonDet : DetectedFramework :=
  ⟨"python".data, "Python".data, "requirements.txt".data, 80,
    "python".data⟩

/-- A framework rule of the node ecosystem used to probe rule precedence. -/
def exFrameworkRuleX : GitIgnoreRule :=
  ⟨"x.txt".data, .recommended, "node react framework rule".data⟩

/-- A base rule of the python ecosystem with the same pattern as
exFrameworkRuleX. -/
def exBaseRuleX : GitIgnoreRule :=
  ⟨"x.txt".data, .critical, "python base rule".data⟩

/-- A catalog, within the shape the spec gives the rule-set data, in which
the python base rules and the react framework rules of the node ecosystem
share one pattern. -/
def exCatalog : Catalog :=
  ⟨fun c => if c = "python".data then [exBaseRuleX] else [],
   fun c f =>
     if c = "node".data ∧ f = "react".data then [exFrameworkRuleX] else []⟩

/-! Helper lemmas about the string primitives. -/

theorem containsSub_iff {hay needle : List Char} :
    containsSub hay needle = true ↔ needle <:+: hay := by
  constructor
  · intro h
    obtain ⟨t, ht, hp⟩ := List.any_eq_true.mp h
    exact List.infix_iff_prefix_suffix.mpr
      ⟨t, List.isPrefixOf_iff_prefix.mp hp, (List.mem_tails _ _).mp ht⟩
  · intro h
    obtain ⟨t, hp, ht⟩ := List.infix_iff_prefix_suffix.mp h
    exact List.any_eq_true.mpr
      ⟨t, (List.mem_tails _ _).mpr ht, List.isPrefixOf_iff_prefix.mpr hp⟩

/-! Characterizations of the three matchers on star-free patterns. -/

theorem scanner_starFree_char (f b p : List Char)
    (h : p.contains '*' = false) :
    scannerMatchesPattern f b p = true ↔
      b = stripOneSlash p ∨ f = stripOneSlash p ∨
        (stripOneSlash p ++ ['/']) <+: f ∨
        ('/' :: (stripOneSlash p ++ ['/'])) <:+: f ∨
        (p = ".env".data ∧ (b = ".env".data ∨ ".env.".data <+: b)) := by
  unfold scannerMatchesPattern
  split_ifs with h1 h2 h3 h4 h5 h6 <;>
    simp_all [List.isPrefixOf_iff_prefix, containsSub_iff] <;> tauto

theorem watcher_starFree_char (f b p : List Char)
    (h : p.contains '*' = false) :
    watcherMatchesPattern f b p = true ↔
      b = stripOneSlash p ∨
        (stripOneSlash p = ".env".data ∧
          (b = ".env".data ∨ ".env.".data <+: b)) ∨
        ('/' :: (stripOneSlash p ++ ['/'])) <:+: f ∨
        (stripOneSlash p ++ ['/']) <+: f := by
  unfold watcherMatchesPattern
  split_ifs with h1 h2 h3 h4 h5 <;>
    simp_all [List.isPrefixOf_iff_prefix, containsSub_iff] <;> tauto

theorem rule_starFree_char (f b p : List Char)
    (h : p.contains '*' = false) :
    ruleMatchesPattern f b p = true ↔
      b = stripOneSlash p ∨ stripOneSlash p <:+: f ∨
        (p.getLast? = some '/' ∧
          (('/' :: (stripOneSlash p ++ ['/'])) <:+: f ∨
            (stripOneSlash p ++ ['/']) <+: f)) := by
  unfold ruleMatchesPattern
  split_ifs with h1 h2 h3 h4 <;>
    simp_all [List.isPrefixOf_iff_prefix, containsSub_iff] <;> tauto

/-! Behavior of the compiled glob wildcards. -/

theorem foldl_derivStep_nil (t : List Char) : t.foldl derivStep [] = [] := by
  induction t with
  | nil => rfl
  | cons c cs ih => simpa [derivStep] using ih

theorem rmatch_starNonSlash (t : List Char) :
    rmatch [RAtom.starNonSlash] t = t.all (fun c => c != '/') := by
  induction t with
  | nil => rfl
  | cons c cs ih =>
    by_cases hc : c = '/'
    · subst hc
      simp [rmatch, derivStep, deriv1, foldl_derivStep_nil]
    · have hcb : (c != '/') = true := by simpa using hc
      simpa [rmatch, derivStep, deriv1, hc, hcb] using ih

theorem rmatch_anyCharStarNonSlash (t : List Char) :
    rmatch [RAtom.anyChar, RAtom.starNonSlash] t =
      (decide (t ≠ []) && t.tail.all (fun c => c != '/')) := by
  cases t with
  | nil => rfl
  | cons c cs =>
    simpa [rmatch, derivStep, deriv1] using rmatch_starNonSlash cs

/-! Characterizations of the three matchers on glob patterns. -/

theorem scanner_glob_char (f b p : List Char) (h : p.contains '*' = true) :
    scannerMatchesPattern f b p = true ↔
      b = stripOneSlash p ∨ f = stripOneSlash p ∨
        (stripOneSlash p ++ ['/']) <+: f ∨
        ('/' :: (stripOneSlash p ++ ['/'])) <:+: f ∨
        rmatch (scannerGlobCompile p) b = true ∨
        rmatch (scannerGlobCompile p) f = true := by
  unfold scannerMatchesPattern
  split_ifs with h1 h2 h3 h4 h5 <;>
    simp_all [List.isPrefixOf_iff_prefix, containsSub_iff] <;> tauto

theorem watcher_glob_char (f b p : List Char) (h : p.contains '*' = true) :
    watcherMatchesPattern f b p = true ↔
      b = stripOneSlash p ∨
        (stripOneSlash p = ".env".data ∧
          (b = ".env".data ∨ ".env.".data <+: b)) ∨
        ('/' :: (stripOneSlash p ++ ['/'])) <:+: f ∨
        (stripOneSlash p ++ ['/']) <+: f ∨
        segTest (watcherGlobCompile p) f = true ∨
        segTest (watcherGlobCompile p) b = true := by
  unfold watcherMatchesPattern
  split_ifs with h1 h2 h3 h4 h5 <;>
    simp_all [List.isPrefixOf_iff_prefix, containsSub_iff] <;> tauto

theorem rule_glob_char (f b p : List Char) (h : p.contains '*' = true) :
    ruleMatchesPattern f b p = true ↔
      b = stripOneSlash p ∨ stripOneSlash p <:+: f ∨
        reSearch (ruleGlobCompile p) b = true ∨
        reSearch (ruleGlobCompile p) f = true := by
  unfold ruleMatchesPattern
  split_ifs with h1 h2 h3 <;>
    simp_all [List.isPrefixOf_iff_prefix, containsSub_iff] <;> tauto

theorem reSearch_ruleStar (t : List Char) :
    reSearch (ruleGlobCompile "*".data) t = true := by
  have hc : ruleGlobCompile "*".data = [RAtom.starAny] := rfl
  rw [hc]
  refine List.any_eq_true.mpr ⟨t, (List.mem_tails _ _).mpr List.suffix_rfl, ?_⟩
  exact List.any_eq_true.mpr
    ⟨[], (List.mem_inits _ _).mpr (List.nil_prefix), rfl⟩

/-! Claim C1. -/

/-- Claim C1 counterexample: the claim states that a file named
".environment" does not match pattern ".env" under every matcher the core
uses, but the rule engine's matcher accepts it, because its bare substring
containment test finds ".env" inside ".environment". -/
theorem c1_counterexample :
    ruleMatchesPattern ".environment".data ".environment".data
      ".env".data = true := by decide

/-- Claim C1 (amended): for pattern ".env", every file whose base name is
".env" or starts with ".env." matches under all three matchers; a file
named ".environment" is rejected by the staged-file scanner's and the file
watcher's matchers, but is matched by the rule engine's matcher, whose
substring containment test accepts it. -/
theorem c1_env_family :
    (∀ f b : List Char, b <:+ f →
      (b = ".env".data ∨ ".env.".data <+: b) →
      scannerMatchesPattern f b ".env".data = true ∧
        watcherMatchesPattern f b ".env".data = true ∧
        ruleMatchesPattern f b ".env".data = true) ∧
    scannerMatchesPattern ".environment".data ".environment".data
        ".env".data = false ∧
    watcherMatchesPattern ".environment".data ".environment".data
        ".env".data = false ∧
    ruleMatchesPattern ".environment".data ".environment".data
        ".env".data = true := by
  refine ⟨?_, by decide, by decide, by decide⟩
  intro f b hsuf hb
  have hstar : (".env".data).contains '*' = false := by decide
  have hnp : stripOneSlash ".env".data = ".env".data := by decide
  refine ⟨?_, ?_, ?_⟩
  · rw [scanner_starFree_char f b _ hstar, hnp]
    rcases hb with hb | hb
    · exact Or.inl hb
    · exact Or.inr (Or.inr (Or.inr (Or.inr ⟨rfl, Or.inr hb⟩)))
  · rw [watcher_starFree_char f b _ hstar, hnp]
    rcases hb with hb | hb
    · exact Or.inl hb
    · exact Or.inr (Or.inl ⟨rfl, Or.inr hb⟩)
  · rw [rule_starFree_char f b _ hstar, hnp]
    rcases hb with hb | hb
    · exact Or.inl (hb.trans hnp.symm)
    · have h1 : ".env".data <+: b :=
        List.IsPrefix.trans (by decide : ".env".data <+: ".env.".data) hb
      exact Or.inr (Or.inl (h1.isInfix.trans hsuf.isInfix))

/-- Witness for the amended claim C1 at the concrete file
"a/.env.production". -/
theorem c1_env_family_witness :
    (".env.production".data <:+ "a/.env.production".data ∧
      (".env.production".data = ".env".data ∨
        ".env.".data <+: ".env.production".data)) ∧
    scannerMatchesPattern "a/.env.production".data ".env.production".data
        ".env".data = true ∧
      watcherMatchesPattern "a/.env.production".data ".env.production".data
        ".env".data = true ∧
      ruleMatchesPattern "a/.env.production".data ".env.production".data
        ".env".data = true :=
  ⟨⟨by decide, by decide⟩,
    c1_env_family.1 "a/.env.production".data ".env.production".data
      (by decide) (by decide)⟩

/-! Claim C2. -/

/-- Claim C2 counterexample: the claim characterizes the star-free matcher
result as base-name equality, containment between slashes, or a leading
directory prefix; but the star-free pattern ".env" matches the file
".env.local" through the scanner's env-family special case although none
of the three claimed conditions holds. -/
theorem c2_counterexample :
    (".env".data).contains '*' = false ∧
    scannerMatchesPattern ".env.local".data ".env.local".data
        ".env".data = true ∧
    claimedStarFreeMatch ".env.local".data ".env".data = false := by decide

/-- Claim C2 (amended): for a star-free pattern, with np the pattern
stripped of one trailing slash, the scanner matches exactly when the base
name equals np, the path equals np, the path starts with np and a slash,
the path contains np between slashes, or the pattern is ".env" and the
base name is ".env" or starts with ".env."; the watcher matches exactly
when the base name equals np, np is ".env" and the base name is in the
env family, the path contains np between slashes, or the path starts with
np and a slash; the rule engine matches exactly when the base name equals
np, np occurs anywhere as a substring of the path, or the pattern ends
with a slash and the path contains or starts with the np directory. -/
theorem c2_starFree_semantics :
    ∀ f b p : List Char, p.contains '*' = false →
      (scannerMatchesPattern f b p = true ↔
        b = stripOneSlash p ∨ f = stripOneSlash p ∨
          (stripOneSlash p ++ ['/']) <+: f ∨
          ('/' :: (stripOneSlash p ++ ['/'])) <:+: f ∨
          (p = ".env".data ∧ (b = ".env".data ∨ ".env.".data <+: b))) ∧
      (watcherMatchesPattern f b p = true ↔
        b = stripOneSlash p ∨
          (stripOneSlash p = ".env".data ∧
            (b = ".env".data ∨ ".env.".data <+: b)) ∨
          ('/' :: (stripOneSlash p ++ ['/'])) <:+: f ∨
          (stripOneSlash p ++ ['/']) <+: f) ∧
      (ruleMatchesPattern f b p = true ↔
        b = stripOneSlash p ∨ stripOneSlash p <:+: f ∨
          (p.getLast? = some '/' ∧
            (('/' :: (stripOneSlash p ++ ['/'])) <:+: f ∨
              (stripOneSlash p ++ ['/']) <+: f))) :=
  fun f b p h =>
    ⟨scanner_starFree_char f b p h, watcher_starFree_char f b p h,
      rule_starFree_char f b p h⟩

/-- Witness for the amended claim C2: concrete consequences at the path
"src/secrets/config.json" and the star-free patterns "secrets" and
"config.json". -/
theorem c2_starFree_semantics_witness :
    scannerMatchesPattern "src/secrets/config.json".data "config.json".data
        "config.json".data = true ∧
    watcherMatchesPattern "src/secrets/config.json".data "config.json".data
        "secrets".data = true ∧
    ruleMatchesPattern "src/secrets/config.json".data "config.json".data
        "nope".data = false :=
  ⟨(c2_starFree_semantics "src/secrets/config.json".data "config.json".data
      "config.json".data (by decide)).1.mpr (Or.inl (by decide)),
   (c2_starFree_semantics "src/secrets/config.json".data "config.json".data
      "secrets".data (by decide)).2.1.mpr
      (Or.inr (Or.inr (Or.inl (by decide)))),
   by
    have h := (c2_starFree_semantics "src/secrets/config.json".data
      "config.json".data "nope".data (by decide)).2.2
    rw [Bool.eq_false_iff]
    intro hc
    have := h.mp hc
    revert this
    decide⟩

/-! Claim C3. -/

/-- Claim C3 counterexample: under the claimed glob semantics the pattern
with a double star and a log extension matches the nested path, and the
anchored single-star pattern does not match a name with a trailing
character; the scanner rejects the first because its double star does not
cross separators, and the rule engine accepts the second because its
regex is unanchored. -/
theorem c3_counterexample :
    (claimedGlobMatch "a/b/c.log".data "c.log".data "**/*.log".data = true ∧
      scannerMatchesPattern "a/b/c.log".data "c.log".data
        "**/*.log".data = false) ∧
    (claimedGlobMatch "x.logs".data "x.logs".data "*.log".data = false ∧
      ruleMatchesPattern "x.logs".data "x.logs".data "*.log".data = true) := by
  decide

/-- Claim C3 (amended): on a pattern containing a star, the scanner tests
its compiled regex whole-string anchored against the base name and the
full path (on top of its literal branches); a compiled single star matches
exactly a slash-free run, but a compiled double star matches exactly one
arbitrary character followed by a slash-free run, so it does not cross
path separators past its first character; the watcher tests its regex
anchored at the end and at a start-or-separator boundary; and the rule
engine performs an unanchored substring search with every star compiled
to a wildcard that crosses separators, so its single-star pattern matches
every string. -/
theorem c3_glob_semantics :
    (∀ f b p : List Char, p.contains '*' = true →
      (scannerMatchesPattern f b p = true ↔
        b = stripOneSlash p ∨ f = stripOneSlash p ∨
          (stripOneSlash p ++ ['/']) <+: f ∨
          ('/' :: (stripOneSlash p ++ ['/'])) <:+: f ∨
          rmatch (scannerGlobCompile p) b = true ∨
          rmatch (scannerGlobCompile p) f = true)) ∧
    (∀ t : List Char,
      rmatch (scannerGlobCompile "*".data) t = t.all (fun c => c != '/')) ∧
    (∀ t : List Char,
      rmatch (scannerGlobCompile "**".data) t =
        (decide (t ≠ []) && t.tail.all (fun c => c != '/'))) ∧
    (∀ f b p : List Char, p.contains '*' = true →
      (watcherMatchesPattern f b p = true ↔
        b = stripOneSlash p ∨
          (stripOneSlash p = ".env".data ∧
            (b = ".env".data ∨ ".env.".data <+: b)) ∨
          ('/' :: (stripOneSlash p ++ ['/'])) <:+: f ∨
          (stripOneSlash p ++ ['/']) <+: f ∨
          segTest (watcherGlobCompile p) f = true ∨
          segTest (watcherGlobCompile p) b = true)) ∧
    (∀ f b p : List Char, p.contains '*' = true →
      (ruleMatchesPattern f b p = true ↔
        b = stripOneSlash p ∨ stripOneSlash p <:+: f ∨
          reSearch (ruleGlobCompile p) b = true ∨
          reSearch (ruleGlobCompile p) f = true)) ∧
    (∀ t : List Char, reSearch (ruleGlobCompile "*".data) t = true) := by
  refine ⟨scanner_glob_char, ?_, ?_, watcher_glob_char, rule_glob_char,
    reSearch_ruleStar⟩
  · intro t
    exact rmatch_starNonSlash t
  · intro t
    exact rmatch_anyCharStarNonSlash t

/-- Witness for the amended claim C3 at concrete paths and the patterns
with a single star and a log extension. -/
theorem c3_glob_semantics_witness :
    scannerMatchesPattern "dir/x.log".data "x.log".data "*.log".data = true ∧
    ruleMatchesPattern "readme".data "readme".data "*".data = true :=
  ⟨(c3_glob_semantics.1 "dir/x.log".data "x.log".data "*.log".data
      (by decide)).mpr (Or.inr (Or.inr (Or.inr (Or.inr (Or.inl
        (by decide)))))),
   (c3_glob_semantics.2.2.2.2.1 "readme".data "readme".data "*".data
      (by decide)).mpr (Or.inr (Or.inr (Or.inl
        (c3_glob_semantics.2.2.2.2.2 "readme".data))))⟩

/-! Claims C9 and C10 about the gitignore handler results. -/

/-- Claim C9 (confirmed): when the write of the ignore file fails and
there was something to append, addPatterns returns a structured result
with success false carrying the error message, and the file content is
untouched; the model is total, mirroring the catch branch that swallows
the exception instead of rethrowing. -/
theorem c9_write_failure (fs : Option (List Char)) (msg : List Char)
    (rules : List GitIgnoreRule) (fw : Option (List Char))
    (h : ∃ r ∈ rules, normalizePattern r.pattern ∉ existingPatternsOf fs) :
    (addPatterns fs (some msg) rules fw).1.success = false ∧
      (addPatterns fs (some msg) rules fw).1.error = some msg ∧
      (addPatterns fs (some msg) rules fw).2 = fs := by
  obtain ⟨r, hr, hnr⟩ := h
  have hne : rules.filter
      (fun r => !decide (normalizePattern r.pattern ∈ existingPatternsOf fs))
        ≠ [] := by
    intro hnil
    have := List.filter_eq_nil_iff.mp hnil r hr
    simp_all
  unfold addPatterns
  simp [hne]

/-- Witness for claim C9 at a concrete file and rule list. -/
theorem c9_write_failure_witness :
    (addPatterns (some "a\n".data) (some "disk full".data)
        [exRuleNodeModules] none).1.success = false ∧
      (addPatterns (some "a\n".data) (some "disk full".data)
        [exRuleNodeModules] none).1.error = some "disk full".data ∧
      (addPatterns (some "a\n".data) (some "disk full".data)
        [exRuleNodeModules] none).2 = some "a\n".data :=
  c9_write_failure (some "a\n".data) "disk full".data [exRuleNodeModules]
    none ⟨exRuleNodeModules, by decide, by decide⟩

/-- Early-return behavior of addPatterns when every rule pattern is
already present, shared by several results below. -/
theorem addPatterns_noop (fs w : Option (List Char))
    (rules : List GitIgnoreRule) (fw : Option (List Char))
    (h : ∀ r ∈ rules, normalizePattern r.pattern ∈ existingPatternsOf fs) :
    addPatterns fs w rules fw =
      (⟨true, [], rules.map (fun r => r.pattern), none⟩, fs) := by
  have h1 : rules.filter
      (fun r => !decide (normalizePattern r.pattern ∈ existingPatternsOf fs))
        = [] := by
    rw [List.filter_eq_nil_iff]
    intro r hr
    simpa using h r hr
  have h2 : rules.filter
      (fun r => normalizePattern r.pattern ∈ existingPatternsOf fs) = rules := by
    rw [List.filter_eq_self]
    intro r hr
    simpa using h r hr
  unfold addPatterns
  simp [h1, h2]

/-- Claim C10 (confirmed): when every rule's normalized pattern is already
present, addPatterns succeeds with no added patterns, reports every input
pattern as existing, and leaves the file untouched, no matter how the
writer would behave. -/
theorem c10_all_existing (fs w : Option (List Char))
    (rules : List GitIgnoreRule) (fw : Option (List Char))
    (h : ∀ r ∈ rules, normalizePattern r.pattern ∈ existingPatternsOf fs) :
    addPatterns fs w rules fw =
      (⟨true, [], rules.map (fun r => r.pattern), none⟩, fs) :=
  addPatterns_noop fs w rules fw h

/-- Witness for claim C10 at a concrete file already containing the rule
pattern. -/
theorem c10_all_existing_witness :
    addPatterns (some "node_modules/\n".data) none [exRuleNodeModules]
        none =
      (⟨true, [], ["node_modules".data], none⟩,
        some "node_modules/\n".data) :=
  c10_all_existing (some "node_modules/\n".data) none [exRuleNodeModules]
    none (by decide)

/-! Helper lemmas about lines, trimming and joining for claim C4. -/

theorem splitNl_ne_nil (l : List Char) : splitNl l ≠ [] := by
  cases l with
  | nil => simp [splitNl]
  | cons c cs =>
    by_cases hc : c = '\n' <;> simp [splitNl, hc]

theorem splitNl_append_newline (xs ys : List Char) :
    splitNl (xs ++ '\n' :: ys) = splitNl xs ++ splitNl ys := by
  induction xs with
  | nil => simp [splitNl]
  | cons c cs ih =>
    by_cases hc : c = '\n'
    · simp [splitNl, hc, ih]
    · obtain ⟨a, as, ha⟩ := List.exists_cons_of_ne_nil (splitNl_ne_nil cs)
      simp [splitNl, hc, ih, ha]

theorem splitNl_append_last (xs : List Char) :
    splitNl (xs ++ ['\n']) = splitNl xs ++ [[]] := by
  simpa [splitNl] using splitNl_append_newline xs []

theorem splitNl_no_newline {l : List Char} (h : '\n' ∉ l) :
    splitNl l = [l] := by
  induction l with
  | nil => rfl
  | cons c cs ih =>
    have hc : c ≠ '\n' := fun hc => h (hc ▸ List.mem_cons_self c cs)
    have hcs : '\n' ∉ cs := fun hm => h (List.mem_cons_of_mem c hm)
    simp [splitNl, hc, ih hcs]

theorem mem_splitNl_joinNl {ls : List (List Char)} {x : List Char}
    (hx : x ∈ ls) (hn : '\n' ∉ x) : x ∈ splitNl (joinNl ls ++ ['\n']) := by
  induction ls with
  | nil => cases hx
  | cons y ls' ih =>
    cases ls' with
    | nil =>
      rcases List.mem_cons.mp hx with hx | hx
      · subst hx
        simp [joinNl, splitNl_append_last, splitNl_no_newline hn]
      · cases hx
    | cons z ls2 =>
      have hjoin : joinNl (y :: z :: ls2) = y ++ '\n' :: joinNl (z :: ls2) :=
        rfl
      have hsplit : splitNl (joinNl (y :: z :: ls2) ++ ['\n']) =
          splitNl y ++ splitNl (joinNl (z :: ls2) ++ ['\n']) := by
        rw [hjoin, List.append_assoc, List.cons_append]
        exact splitNl_append_newline y (joinNl (z :: ls2) ++ ['\n'])
      rw [hsplit]
      rcases List.mem_cons.mp hx with hx | hx
      · subst hx
        exact List.mem_append_left _ (by simp [splitNl_no_newline hn])
      · exact List.mem_append_right _ (ih hx)

theorem jsTrim_append_newline (l : List Char) :
    jsTrim (l ++ ['\n']) = jsTrim l := by
  unfold jsTrim
  rw [List.dropWhile_append]
  by_cases h : (l.dropWhile isWs).isEmpty
  · have h0 : l.dropWhile isWs = [] := by simpa using h
    have hnl : List.dropWhile isWs ['\n'] = [] := by decide
    simp [h, h0, hnl]
  · have hnl : isWs '\n' = true := by decide
    have hb : ((l.dropWhile isWs).isEmpty : Bool) = false := by
      simpa using h
    rw [hb]
    simp only [Bool.false_eq_true, if_false, List.reverse_append,
      List.reverse_singleton, List.singleton_append,
      List.dropWhile_cons_of_pos hnl]

theorem dropWhile_isWs_idem (l : List Char) :
    (l.dropWhile isWs).dropWhile isWs = l.dropWhile isWs := by
  induction l with
  | nil => rfl
  | cons c cs ih =>
    by_cases hc : isWs c = true
    · simp [List.dropWhile_cons, hc, ih]
    · simp [List.dropWhile_cons, hc]

theorem getLast?_of_suffix {B L : List Char} (h : B <:+ L) (hne : B ≠ []) :
    B.getLast? = L.getLast? := by
  obtain ⟨t, rfl⟩ := h
  cases hg : B.getLast? with
  | none => exact absurd (List.getLast?_eq_none_iff.mp hg) hne
  | some x => rw [List.getLast?_append, hg]; rfl

theorem jsTrim_two_sided (B : List Char)
    (h1 : ∀ x, B.head? = some x → isWs x = false)
    (h2 : ∀ x, B.getLast? = some x → isWs x = false) :
    jsTrim B = B := by
  unfold jsTrim
  have hd : B.dropWhile isWs = B := by
    cases B with
    | nil => rfl
    | cons b bs =>
      rw [List.dropWhile_cons_of_neg]
      simp [h1 b rfl]
  rw [hd]
  have hd2 : B.reverse.dropWhile isWs = B.reverse := by
    cases hB : B.reverse with
    | nil => rfl
    | cons b bs =>
      rw [List.dropWhile_cons_of_neg]
      have hb : B.getLast? = some b := by
        rw [← List.head?_reverse, hB]
        rfl
      simp [h2 b hb]
  rw [hd2, List.reverse_reverse]

theorem jsTrim_head_not_ws (l : List Char) :
    ∀ x, (jsTrim l).head? = some x → isWs x = false := by
  intro x hx
  unfold jsTrim at hx
  rw [List.head?_reverse] at hx
  rcases hsuf : (l.dropWhile isWs).reverse.dropWhile isWs with _ | ⟨b, bs⟩
  · rw [hsuf] at hx
    simp at hx
  · have hBne : (l.dropWhile isWs).reverse.dropWhile isWs ≠ [] := by
      rw [hsuf]; simp
    have hlast : ((l.dropWhile isWs).reverse.dropWhile isWs).getLast? =
        ((l.dropWhile isWs).reverse).getLast? :=
      getLast?_of_suffix (List.dropWhile_suffix isWs) hBne
    rw [hlast, List.getLast?_reverse] at hx
    have := List.head?_dropWhile_not isWs l
    rw [hx] at this
    simpa using this

theorem jsTrim_getLast_not_ws (l : List Char) :
    ∀ x, (jsTrim l).getLast? = some x → isWs x = false := by
  intro x hx
  unfold jsTrim at hx
  rw [List.getLast?_reverse] at hx
  have := List.head?_dropWhile_not isWs (l.dropWhile isWs).reverse
  rw [hx] at this
  simpa using this

theorem jsTrim_idem (l : List Char) : jsTrim (jsTrim l) = jsTrim l :=
  jsTrim_two_sided (jsTrim l) (jsTrim_head_not_ws l) (jsTrim_getLast_not_ws l)

theorem normalizePattern_jsTrim (p : List Char) :
    normalizePattern (jsTrim p) = normalizePattern p := by
  unfold normalizePattern
  rw [jsTrim_idem]

/-! Structure of the content written by addPatterns. -/

theorem ensureNl_shape (c : List Char) :
    ensureNl c = [] ∨ ∃ c2, ensureNl c = c2 ++ ['\n'] := by
  unfold ensureNl
  by_cases h : c ≠ [] ∧ c.getLast? ≠ some '\n'
  · exact Or.inr ⟨c, by rw [if_pos h]⟩
  · rw [if_neg h]
    rcases not_and_or.mp h with h1 | h2
    · exact Or.inl (not_not.mp h1)
    · obtain ⟨c2, hc2⟩ := List.getLast?_eq_some_iff.mp (not_not.mp h2)
      exact Or.inr ⟨c2, hc2⟩

theorem jsTrim_ensureNl (c : List Char) : jsTrim (ensureNl c) = jsTrim c := by
  unfold ensureNl
  by_cases h : c ≠ [] ∧ c.getLast? ≠ some '\n'
  · rw [if_pos h, jsTrim_append_newline]
  · rw [if_neg h]

theorem addPatterns_write_eq (fs : Option (List Char))
    (rules : List GitIgnoreRule) (fw : Option (List Char))
    (hne : rules.filter
      (fun r => !decide (normalizePattern r.pattern ∈ existingPatternsOf fs))
        ≠ []) :
    (addPatterns fs none rules fw).2 =
      some (ensureNl (fs.getD []) ++
        joinNl ((if jsTrim (ensureNl (fs.getD [])) ≠ [] then [[]] else []) ++
          headerLine fw ::
            (rules.filter (fun r =>
              !decide (normalizePattern r.pattern ∈ existingPatternsOf fs))).flatMap
              ruleLines) ++ ['\n']) := by
  unfold addPatterns
  simp [hne]

theorem splitNl_core_sublist (c : List Char) (tail1 : List (List Char)) :
    splitNl c <+
      splitNl (ensureNl c ++
        joinNl ((if jsTrim (ensureNl c) ≠ [] then [[]] else []) ++ tail1) ++
          ['\n']) := by
  by_cases he : c ≠ [] ∧ c.getLast? ≠ some '\n'
  · have h2 : ensureNl c = c ++ ['\n'] := by rw [ensureNl, if_pos he]
    have hR : ensureNl c ++
        joinNl ((if jsTrim (ensureNl c) ≠ [] then [[]] else []) ++ tail1) ++
          ['\n'] =
        c ++ '\n' ::
          (joinNl ((if jsTrim (ensureNl c) ≠ [] then [[]] else []) ++ tail1)
            ++ ['\n']) := by
      rw [h2]; simp
    rw [hR, splitNl_append_newline]
    exact List.sublist_append_left _ _
  · have h2 : ensureNl c = c := by rw [ensureNl, if_neg he]
    rcases not_and_or.mp he with h1 | h1
    · have hc : c = [] := not_not.mp h1
      subst hc
      have h0 : ensureNl [] = ([] : List Char) := rfl
      rw [h0, List.nil_append, splitNl_append_last]
      exact List.sublist_append_right _ _
    · obtain ⟨c2, hc2⟩ := List.getLast?_eq_some_iff.mp (not_not.mp h1)
      have hR : ensureNl c ++
          joinNl ((if jsTrim (ensureNl c) ≠ [] then [[]] else []) ++ tail1) ++
            ['\n'] =
          c2 ++ '\n' ::
            (joinNl ((if jsTrim (ensureNl c) ≠ [] then [[]] else []) ++ tail1)
              ++ ['\n']) := by
        rw [h2, hc2]; simp
      rw [hR, splitNl_append_newline, hc2, splitNl_append_last,
        splitNl_append_last]
      refine List.Sublist.append (List.Sublist.refl _) ?_
      exact List.sublist_append_right _ _

theorem splitNl_core_prefix (c : List Char) (tail1 : List (List Char))
    (hc : jsTrim c ≠ []) (ht : tail1 ≠ []) :
    splitNl c <+:
      splitNl (ensureNl c ++
        joinNl ((if jsTrim (ensureNl c) ≠ [] then [[]] else []) ++ tail1) ++
          ['\n']) := by
  have hsep : (if jsTrim (ensureNl c) ≠ [] then [[]] else ([] : List (List Char)))
      = [[]] := by
    rw [if_pos]
    rw [jsTrim_ensureNl]
    exact hc
  rw [hsep]
  by_cases he : c ≠ [] ∧ c.getLast? ≠ some '\n'
  · have h2 : ensureNl c = c ++ ['\n'] := by rw [ensureNl, if_pos he]
    have hR : ensureNl c ++ joinNl ([[]] ++ tail1) ++ ['\n'] =
        c ++ '\n' :: (joinNl ([[]] ++ tail1) ++ ['\n']) := by
      rw [h2]; simp
    rw [hR, splitNl_append_newline]
    exact List.prefix_append _ _
  · have h2 : ensureNl c = c := by rw [ensureNl, if_neg he]
    rcases not_and_or.mp he with h1 | h1
    · exact absurd (not_not.mp h1) (by intro h0; exact hc (by rw [h0]; rfl))
    · obtain ⟨c2, hc2⟩ := List.getLast?_eq_some_iff.mp (not_not.mp h1)
      obtain ⟨t2, ts, ht2⟩ := List.exists_cons_of_ne_nil ht
      subst ht2
      have hjoin : joinNl ([[]] ++ t2 :: ts) = '\n' :: joinNl (t2 :: ts) :=
        rfl
      have hR : ensureNl c ++ joinNl ([[]] ++ t2 :: ts) ++ ['\n'] =
          c2 ++ '\n' :: ('\n' :: (joinNl (t2 :: ts) ++ ['\n'])) := by
        rw [h2, hc2, hjoin]; simp
      rw [hR, splitNl_append_newline, hc2, splitNl_append_last]
      have hsp : splitNl ('\n' :: (joinNl (t2 :: ts) ++ ['\n'])) =
          [] :: splitNl (joinNl (t2 :: ts) ++ ['\n']) := by
        simp [splitNl]
      rw [hsp]
      exact ⟨splitNl (joinNl (t2 :: ts) ++ ['\n']), by simp⟩

/-! Claim C4: append-only and idempotence of addPatterns. -/

theorem addPatterns_lines_sublist (fs : Option (List Char))
    (rules : List GitIgnoreRule) (fw : Option (List Char)) :
    splitNl (fs.getD []) <+
      splitNl (((addPatterns fs none rules fw).2).getD []) := by
  by_cases hne : rules.filter
      (fun r => !decide (normalizePattern r.pattern ∈ existingPatternsOf fs))
        = []
  · have h : (addPatterns fs none rules fw).2 = fs := by
      unfold addPatterns
      simp [hne]
    rw [h]
  · rw [addPatterns_write_eq fs rules fw hne]
    simp only [Option.getD_some]
    exact splitNl_core_sublist _ _

theorem addPatterns_lines_prefix (c : List Char)
    (rules : List GitIgnoreRule) (fw : Option (List Char))
    (hc : jsTrim c ≠ []) :
    splitNl c <+:
      splitNl (((addPatterns (some c) none rules fw).2).getD []) := by
  by_cases hne : rules.filter
      (fun r => !decide
        (normalizePattern r.pattern ∈ existingPatternsOf (some c))) = []
  · have h : (addPatterns (some c) none rules fw).2 = some c := by
      unfold addPatterns
      simp [hne]
    rw [h]
    simp only [Option.getD_some]
    exact List.prefix_rfl
  · rw [addPatterns_write_eq (some c) rules fw hne]
    simp only [Option.getD_some]
    exact splitNl_core_prefix c _ hc (by simp)

theorem existingPatternsOf_getD (fs : Option (List Char)) :
    existingPatternsOf fs = parsedPatterns (fs.getD []) := by
  cases fs with
  | none => rfl
  | some c => rfl

theorem parsedPatterns_mono {c c2 : List Char}
    (h : splitNl c <+ splitNl c2) :
    ∀ x ∈ parsedPatterns c, x ∈ parsedPatterns c2 := by
  intro x hx
  unfold parsedPatterns at hx ⊢
  exact (List.Sublist.filterMap _ h).subset hx

theorem mem_parsed_of_line {content line : List Char}
    (hl : line ∈ splitNl content) (h1 : jsTrim line ≠ [])
    (h2 : (jsTrim line).head? ≠ some '#') :
    normalizePattern line ∈ parsedPatterns content := by
  unfold parsedPatterns
  refine List.mem_filterMap.mpr ⟨line, hl, ?_⟩
  show (if jsTrim line = [] then none
    else if (jsTrim line).head? = some '#' then none
    else some (normalizePattern (jsTrim line))) = some (normalizePattern line)
  rw [if_neg h1, if_neg h2, normalizePattern_jsTrim]

theorem mem_splitNl_content {c : List Char} {ls : List (List Char)}
    {x : List Char} (hx : x ∈ ls) (hn : '\n' ∉ x) :
    x ∈ splitNl (ensureNl c ++ joinNl ls ++ ['\n']) := by
  rcases ensureNl_shape c with h | ⟨c2, h⟩
  · rw [h, List.nil_append]
    exact mem_splitNl_joinNl hx hn
  · have hR : ensureNl c ++ joinNl ls ++ ['\n'] =
        c2 ++ '\n' :: (joinNl ls ++ ['\n']) := by
      rw [h]; simp
    rw [hR, splitNl_append_newline]
    exact List.mem_append_right _ (mem_splitNl_joinNl hx hn)

theorem addPatterns_idem (fs : Option (List Char))
    (rules : List GitIgnoreRule) (fw : Option (List Char))
    (hp : ∀ r ∈ rules, '\n' ∉ r.pattern ∧ jsTrim r.pattern ≠ [] ∧
      (jsTrim r.pattern).head? ≠ some '#') :
    (addPatterns ((addPatterns fs none rules fw).2) none rules fw).2 =
      (addPatterns fs none rules fw).2 := by
  have hall : ∀ r ∈ rules, normalizePattern r.pattern ∈
      existingPatternsOf ((addPatterns fs none rules fw).2) := by
    intro r hr
    by_cases hmem : normalizePattern r.pattern ∈ existingPatternsOf fs
    · rw [existingPatternsOf_getD] at hmem ⊢
      exact parsedPatterns_mono (addPatterns_lines_sublist fs rules fw) _ hmem
    · have hne : rules.filter
          (fun r => !decide
            (normalizePattern r.pattern ∈ existingPatternsOf fs)) ≠ [] := by
        intro h0
        have := List.filter_eq_nil_iff.mp h0 r hr
        simp_all
      obtain ⟨hn1, hn2, hn3⟩ := hp r hr
      rw [addPatterns_write_eq fs rules fw hne, existingPatternsOf_getD]
      simp only [Option.getD_some]
      have hmem2 : r ∈ rules.filter
          (fun r => !decide
            (normalizePattern r.pattern ∈ existingPatternsOf fs)) :=
        List.mem_filter.mpr ⟨hr, by simp [hmem]⟩
      have hflat : r.pattern ∈ (rules.filter
          (fun r => !decide
            (normalizePattern r.pattern ∈ existingPatternsOf fs))).flatMap
              ruleLines :=
        List.mem_flatMap.mpr ⟨r, hmem2, by simp [ruleLines]⟩
      have hline : r.pattern ∈
          (if jsTrim (ensureNl (fs.getD [])) ≠ [] then [[]] else []) ++
            headerLine fw :: (rules.filter
              (fun r => !decide
                (normalizePattern r.pattern ∈ existingPatternsOf fs))).flatMap
                  ruleLines :=
        List.mem_append_right _ (List.mem_cons_of_mem _ hflat)
      have := mem_splitNl_content (c := fs.getD []) hline hn1
      have hpat : normalizePattern r.pattern ∈ parsedPatterns
          (ensureNl (fs.getD []) ++
            joinNl ((if jsTrim (ensureNl (fs.getD [])) ≠ [] then [[]]
              else []) ++ headerLine fw :: (rules.filter
                (fun r => !decide (normalizePattern r.pattern ∈
                  existingPatternsOf fs))).flatMap ruleLines) ++ ['\n']) :=
        mem_parsed_of_line this hn2 hn3
      exact hpat
  have h2 := addPatterns_noop ((addPatterns fs none rules fw).2) none rules
    fw hall
  rw [h2]

/-- Claim C4 counterexample: the claim states that the old line sequence
is a prefix of the new one and that a second identical call changes
nothing; but appending to a whitespace-only file inserts the header where
the old blank lines would have to continue, so the old lines are not a
prefix (only a subsequence), and a rule whose pattern line parses as a
comment is appended again by every call. -/
theorem c4_counterexample :
    (splitNl "\n\n".data).isPrefixOf
      (splitNl (((addPatterns (some "\n\n".data) none [exRuleNodeModules]
        none).2).getD [])) = false ∧
    (addPatterns ((addPatterns (some "ok\n".data) none [exRuleHash]
        none).2) none [exRuleHash] none).2 ≠
      (addPatterns (some "ok\n".data) none [exRuleHash] none).2 := by
  decide

/-- Claim C4 (amended): for every starting content and rule list, the old
line sequence is an order-preserving subsequence of the written content;
it is moreover a prefix whenever the starting content has any non-blank
character; and a second call with the same rules leaves the content
identical provided each rule pattern contains no newline, is non-blank
after trimming, and does not start with the comment character after
trimming. -/
theorem c4_append_only_idempotent :
    (∀ (fs : Option (List Char)) (rules : List GitIgnoreRule)
      (fw : Option (List Char)),
      splitNl (fs.getD []) <+
        splitNl (((addPatterns fs none rules fw).2).getD [])) ∧
    (∀ (c : List Char) (rules : List GitIgnoreRule)
      (fw : Option (List Char)), jsTrim c ≠ [] →
      splitNl c <+:
        splitNl (((addPatterns (some c) none rules fw).2).getD [])) ∧
    (∀ (fs : Option (List Char)) (rules : List GitIgnoreRule)
      (fw : Option (List Char)),
      (∀ r ∈ rules, '\n' ∉ r.pattern ∧ jsTrim r.pattern ≠ [] ∧
        (jsTrim r.pattern).head? ≠ some '#') →
      (addPatterns ((addPatterns fs none rules fw).2) none rules fw).2 =
        (addPatterns fs none rules fw).2) :=
  ⟨addPatterns_lines_sublist, addPatterns_lines_prefix, addPatterns_idem⟩

/-- Witness for the amended claim C4 at a concrete two-line file and the
dependency-directory rule. -/
theorem c4_append_only_idempotent_witness :
    (splitNl "a\nb".data <+
      splitNl (((addPatterns (some "a\nb".data) none [exRuleNodeModules]
        none).2).getD [])) ∧
    (splitNl "a\nb".data <+:
      splitNl (((addPatterns (some "a\nb".data) none [exRuleNodeModules]
        none).2).getD [])) ∧
    (addPatterns ((addPatterns (some "a\nb".data) none [exRuleNodeModules]
        none).2) none [exRuleNodeModules] none).2 =
      (addPatterns (some "a\nb".data) none [exRuleNodeModules] none).2 :=
  ⟨c4_append_only_idempotent.1 (some "a\nb".data) [exRuleNodeModules] none,
   c4_append_only_idempotent.2.1 "a\nb".data [exRuleNodeModules] none
     (by decide),
   c4_append_only_idempotent.2.2 (some "a\nb".data) [exRuleNodeModules]
     none (by decide)⟩

/-! Claim C5: debounced event batching. -/

theorem upsertPending_fresh (m : List (List Char × RiskyFileEvent))
    (e : RiskyFileEvent) (h : ∀ pe ∈ m, pe.1 ≠ e.filePath) :
    upsertPending m e = m ++ [(e.filePath, e)] := by
  unfold upsertPending
  rw [if_neg]
  intro hany
  obtain ⟨pe, hpe, heq⟩ := List.any_eq_true.mp hany
  exact h pe hpe (by simpa using heq)

theorem runBatcher_start (delay t : Nat) (e : RiskyFileEvent)
    (rest : List (Nat × RiskyFileEvent)) :
    runBatcher delay ((t, e) :: rest) [] none =
      runBatcher delay rest (upsertPending [] e) (some (t + delay)) := by
  conv_lhs => rw [runBatcher]
  simp

theorem runBatcher_cons_lt (delay t d : Nat) (e : RiskyFileEvent)
    (rest : List (Nat × RiskyFileEvent))
    (pending : List (List Char × RiskyFileEvent)) (h : t < d) :
    runBatcher delay ((t, e) :: rest) pending (some d) =
      runBatcher delay rest (upsertPending pending e) (some (t + delay)) := by
  conv_lhs => rw [runBatcher]
  have hd : (decide (d ≤ t)) = false := by simp [Nat.not_le_of_lt h]
  simp [hd]

theorem runBatcher_burst (delay : Nat) :
    ∀ (evs : List (Nat × RiskyFileEvent))
      (pending : List (List Char × RiskyFileEvent)) (d : Nat),
      pending ≠ [] →
      (∀ te ∈ evs.head?, te.1 < d) →
      tightChain delay evs = true →
      (∀ te ∈ evs, ∀ pe ∈ pending, pe.1 ≠ te.2.filePath) →
      (evs.map (fun te => te.2.filePath)).Nodup →
      runBatcher delay evs pending (some d) =
        [(pending ++ evs.map (fun te => (te.2.filePath, te.2))).map
          (fun p => p.2)] := by
  intro evs
  induction evs with
  | nil =>
    intro pending d hp _ _ _ _
    simp [runBatcher, hp]
  | cons te rest ih =>
    intro pending d hp hhead hchain hfresh hnodup
    obtain ⟨t, e⟩ := te
    have ht : t < d := hhead (t, e) rfl
    rw [runBatcher_cons_lt delay t d e rest pending ht]
    have hup : upsertPending pending e = pending ++ [(e.filePath, e)] :=
      upsertPending_fresh pending e
        (fun pe hpe => hfresh (t, e) (List.mem_cons_self _ _) pe hpe)
    rw [hup]
    have hstep := ih (pending ++ [(e.filePath, e)]) (t + delay)
      (by simp)
      (by
        intro te2 hte2
        cases rest with
        | nil => simp at hte2
        | cons te3 rest2 =>
          obtain ⟨t3, e3⟩ := te3
          have h32 : (t3, e3) = te2 := by simpa using hte2
          have hc := hchain
          unfold tightChain at hc
          simp only [Bool.and_eq_true, decide_eq_true_eq] at hc
          rw [← h32]
          exact hc.1.2)
      (by
        cases rest with
        | nil => rfl
        | cons te3 rest2 =>
          have hc := hchain
          unfold tightChain at hc
          obtain ⟨t3, e3⟩ := te3
          simp only [Bool.and_eq_true, decide_eq_true_eq] at hc
          exact hc.2)
      (by
        intro te2 hte2 pe hpe
        rcases List.mem_append.mp hpe with hpe | hpe
        · exact hfresh te2 (List.mem_cons_of_mem _ hte2) pe hpe
        · have hpe2 : pe = (e.filePath, e) := by simpa using hpe
          subst hpe2
          have hn := hnodup
          simp only [List.map_cons, List.nodup_cons, List.mem_map] at hn
          intro hcontra
          exact hn.1 ⟨te2, hte2, hcontra.symm⟩)
      (by
        have hn := hnodup
        simp only [List.map_cons, List.nodup_cons] at hn
        exact hn.2)
    rw [hstep]
    simp

/-- Claim C5 (confirmed): a non-empty run of qualifying creation events
for pairwise distinct paths, with every gap shorter than the debounce
delay, is flushed as exactly one batch holding every event, because each
arrival re-arms the single timer; and two events separated by more than
the delay produce two separate flushes. -/
theorem c5_debounce_batching :
    (∀ (delay t1 : Nat) (e1 : RiskyFileEvent)
      (rest : List (Nat × RiskyFileEvent)),
      tightChain delay ((t1, e1) :: rest) = true →
      (((t1, e1) :: rest).map (fun te => te.2.filePath)).Nodup →
      batcherFlushes delay ((t1, e1) :: rest) =
        [((t1, e1) :: rest).map (fun te => te.2)]) ∧
    (∀ (delay t1 t2 : Nat) (e1 e2 : RiskyFileEvent), t1 + delay < t2 →
      batcherFlushes delay [(t1, e1), (t2, e2)] = [[e1], [e2]]) := by
  constructor
  · intro delay t1 e1 rest hchain hnodup
    unfold batcherFlushes
    rw [runBatcher_start]
    have hup : upsertPending [] e1 = [(e1.filePath, e1)] := rfl
    rw [hup]
    have hstep := runBatcher_burst delay rest [(e1.filePath, e1)]
      (t1 + delay) (by simp)
      (by
        intro te2 hte2
        cases rest with
        | nil => simp at hte2
        | cons te3 rest2 =>
          obtain ⟨t3, e3⟩ := te3
          have h32 : (t3, e3) = te2 := by simpa using hte2
          have hc := hchain
          unfold tightChain at hc
          simp only [Bool.and_eq_true, decide_eq_true_eq] at hc
          rw [← h32]
          exact hc.1.2)
      (by
        cases rest with
        | nil => rfl
        | cons te3 rest2 =>
          have hc := hchain
          unfold tightChain at hc
          obtain ⟨t3, e3⟩ := te3
          simp only [Bool.and_eq_true, decide_eq_true_eq] at hc
          exact hc.2)
      (by
        intro te2 hte2 pe hpe
        have hpe2 : pe = (e1.filePath, e1) := by simpa using hpe
        subst hpe2
        have hn := hnodup
        simp only [List.map_cons, List.nodup_cons, List.mem_map] at hn
        intro hcontra
        exact hn.1 ⟨te2, hte2, hcontra.symm⟩)
      (by
        have hn := hnodup
        simp only [List.map_cons, List.nodup_cons] at hn
        exact hn.2)
    rw [hstep]
    simp
  · intro delay t1 t2 e1 e2 h
    have hle : t1 + delay ≤ t2 := Nat.le_of_lt h
    unfold batcherFlushes
    rw [runBatcher_start]
    have hup : upsertPending [] e1 = [(e1.filePath, e1)] := rfl
    rw [hup]
    unfold runBatcher
    have hd : (decide (t1 + delay ≤ t2)) = true := by simp [hle]
    simp [hd, runBatcher, upsertPending]

/-- Witness for claim C5: two events 100 milliseconds apart flush once
together; 1000 milliseconds apart they flush separately, with the default
delay of 500. -/
theorem c5_debounce_batching_witness :
    batcherFlushes 500 [(0, exEventEnv), (100, exEventDb)] =
      [[exEventEnv, exEventDb]] ∧
    batcherFlushes 500 [(0, exEventEnv), (1000, exEventDb)] =
      [[exEventEnv], [exEventDb]] :=
  ⟨by
    have h := c5_debounce_batching.1 500 0 exEventEnv [(100, exEventDb)]
      (by decide) (by decide)
    simpa using h,
   c5_debounce_batching.2 500 0 1000 exEventEnv exEventDb (by decide)⟩

/-! Claim C7: detector deduplication. -/

theorem replaceById_map_id (m : List DetectedFramework)
    (d : DetectedFramework) :
    (replaceById m d).map (fun x => x.id) = m.map (fun x => x.id) := by
  unfold replaceById
  rw [List.map_map]
  refine List.map_congr_left ?_
  intro x _
  by_cases hx : x.id = d.id
  · simp [hx]
  · simp [hx]

theorem keyedStep_map_id (repl) (m : List DetectedFramework)
    (d : DetectedFramework) :
    (keyedStep repl m d).map (fun x => x.id) = m.map (fun x => x.id) ∨
      (keyedStep repl m d).map (fun x => x.id) =
        m.map (fun x => x.id) ++ [d.id] := by
  unfold keyedStep
  cases hf : m.find? (fun x => x.id = d.id) with
  | none => right; simp
  | some e =>
    left
    by_cases hr : repl e d
    · simp [hr, replaceById_map_id]
    · simp [hr]

theorem keyedStep_nodup (repl) (m : List DetectedFramework)
    (d : DetectedFramework) (h : (m.map (fun x => x.id)).Nodup) :
    ((keyedStep repl m d).map (fun x => x.id)).Nodup := by
  unfold keyedStep
  cases hf : m.find? (fun x => x.id = d.id) with
  | none =>
    have hnm : ∀ x ∈ m, ¬(x.id = d.id) := by
      intro x hx
      have := List.find?_eq_none.mp hf x hx
      simpa using this
    simp only [List.map_append, List.map_cons, List.map_nil]
    rw [List.nodup_append]
    refine ⟨h, List.nodup_singleton _, ?_⟩
    intro a ha
    simp only [List.mem_singleton]
    intro hab
    obtain ⟨x, hx, hxa⟩ := List.mem_map.mp ha
    exact hnm x hx (by rw [hxa, hab])
  | some e =>
    by_cases hr : repl e d
    · simp [hr, replaceById_map_id, h]
    · simp [hr, h]

theorem find?_replaceById (m : List DetectedFramework)
    (d : DetectedFramework)
    (h : (m.find? (fun x => x.id = d.id)).isSome) :
    (replaceById m d).find? (fun x => x.id = d.id) = some d := by
  induction m with
  | nil => simp at h
  | cons a m ih =>
    unfold replaceById
    by_cases ha : a.id = d.id
    · simp [ha]
    · rw [List.map_cons, if_neg ha]
      rw [List.find?_cons_of_neg _ (by simpa using ha)]
      have h2 : (m.find? (fun x => x.id = d.id)).isSome := by
        rw [List.find?_cons_of_neg _ (by simpa using ha)] at h
        exact h
      exact ih h2

theorem find?_replaceById_ne (m : List DetectedFramework)
    (d : DetectedFramework) (i : List Char) (h : i ≠ d.id) :
    (replaceById m d).find? (fun x => x.id = i) =
      m.find? (fun x => x.id = i) := by
  induction m with
  | nil => rfl
  | cons a m2 ih =>
    unfold replaceById at ih ⊢
    by_cases ha : a.id = d.id
    · rw [List.map_cons, if_pos ha]
      rw [List.find?_cons_of_neg _ (by
          simp only [decide_eq_true_eq]
          exact fun hh => h hh.symm),
        List.find?_cons_of_neg _ (by
          simp only [decide_eq_true_eq]
          rw [ha]
          exact fun hh => h hh.symm)]
      exact ih
    · rw [List.map_cons, if_neg ha]
      by_cases hai : a.id = i
      · rw [List.find?_cons_of_pos _ (by simpa using hai),
          List.find?_cons_of_pos _ (by simpa using hai)]
      · rw [List.find?_cons_of_neg _ (by simpa using hai),
          List.find?_cons_of_neg _ (by simpa using hai)]
        exact ih

theorem find?_keyedStep_ne (repl) (m : List DetectedFramework)
    (d : DetectedFramework) (i : List Char) (h : i ≠ d.id) :
    (keyedStep repl m d).find? (fun x => x.id = i) =
      m.find? (fun x => x.id = i) := by
  unfold keyedStep
  cases hf : m.find? (fun x => x.id = d.id) with
  | none =>
    dsimp only
    rw [List.find?_append]
    cases hg : m.find? (fun x => x.id = i) with
    | some e => simp
    | none =>
      simp only [Option.none_or]
      rw [List.find?_cons_of_neg _ (by
        simp only [decide_eq_true_eq]
        exact fun hh => h hh.symm)]
      simp
  | some e =>
    dsimp only
    by_cases hr : repl e d
    · rw [if_pos hr]
      exact find?_replaceById_ne m d i h
    · rw [if_neg hr]

theorem find?_keyedStep_eq (repl) (m : List DetectedFramework)
    (d : DetectedFramework) :
    (keyedStep repl m d).find? (fun x => x.id = d.id) =
      match m.find? (fun x => x.id = d.id) with
      | none => some d
      | some e => if repl e d then some d else some e := by
  unfold keyedStep
  cases hf : m.find? (fun x => x.id = d.id) with
  | none =>
    dsimp only
    rw [List.find?_append, hf]
    simp
  | some e =>
    dsimp only
    by_cases hr : repl e d
    · rw [if_pos hr]
      rw [find?_replaceById m d (by rw [hf]; rfl)]
      simp [hr]
    · simp [hr, hf]

theorem foldl_keyedStep_find? (repl) :
    ∀ (ds : List DetectedFramework) (m : List DetectedFramework)
      (i : List Char),
      (ds.foldl (keyedStep repl) m).find? (fun x => x.id = i) =
        (ds.filter (fun x => x.id = i)).foldl (pickStep repl)
          (m.find? (fun x => x.id = i)) := by
  intro ds
  induction ds with
  | nil => intro m i; rfl
  | cons d ds ih =>
    intro m i
    rw [List.foldl_cons, ih]
    by_cases hd : d.id = i
    · rw [List.filter_cons_of_pos (by simpa using hd)]
      rw [List.foldl_cons]
      congr 1
      rw [← hd]
      rw [find?_keyedStep_eq repl m d]
      cases hf : m.find? (fun x => x.id = d.id) with
      | none => rfl
      | some e => rfl
    · rw [List.filter_cons_of_neg (by simpa using hd)]
      congr 1
      exact find?_keyedStep_ne repl m d i (fun hh => hd hh.symm)

theorem foldl_keyedStep_nodup (repl) (ds : List DetectedFramework) :
    ∀ (m : List DetectedFramework), (m.map (fun x => x.id)).Nodup →
      ((ds.foldl (keyedStep repl) m).map (fun x => x.id)).Nodup := by
  induction ds with
  | nil => intro m h; exact h
  | cons d ds ih =>
    intro m h
    exact ih _ (keyedStep_nodup repl m d h)

theorem foldl_pickStep_mem (repl) :
    ∀ (l : List DetectedFramework) (acc : Option DetectedFramework)
      (x : DetectedFramework),
      l.foldl (pickStep repl) acc = some x → x ∈ l ∨ acc = some x := by
  intro l
  induction l with
  | nil => intro acc x h; exact Or.inr h
  | cons d l ih =>
    intro acc x h
    rw [List.foldl_cons] at h
    rcases ih _ x h with h2 | h2
    · exact Or.inl (List.mem_cons_of_mem _ h2)
    · unfold pickStep at h2
      cases acc with
      | none =>
        dsimp only at h2
        simp only [Option.some_inj] at h2
        exact Or.inl (h2 ▸ List.mem_cons_self _ _)
      | some e =>
        dsimp only at h2
        by_cases hr : repl e d
        · rw [if_pos hr] at h2
          simp only [Option.some_inj] at h2
          exact Or.inl (h2 ▸ List.mem_cons_self _ _)
        · rw [if_neg hr] at h2
          exact Or.inr h2

theorem foldl_pickStep_ne_none (repl) :
    ∀ (l : List DetectedFramework) (e : DetectedFramework),
      (l.foldl (pickStep repl) (some e)).isSome := by
  intro l
  induction l with
  | nil => intro e; rfl
  | cons d l ih =>
    intro e
    rw [List.foldl_cons]
    unfold pickStep
    dsimp only
    by_cases hr : repl e d
    · rw [if_pos hr]; exact ih d
    · rw [if_neg hr]; exact ih e

theorem foldl_pickStep_preserves (repl)
    (h3 : ∀ e d y, repl e d = true → repl e y = false → repl d y = false) :
    ∀ (l : List DetectedFramework) (a x y : DetectedFramework),
      l.foldl (pickStep repl) (some a) = some x → repl a y = false →
      repl x y = false := by
  intro l
  induction l with
  | nil =>
    intro a x y h hy
    simp only [List.foldl_nil, Option.some_inj] at h
    rw [← h]; exact hy
  | cons d l ih =>
    intro a x y h hy
    rw [List.foldl_cons] at h
    unfold pickStep at h
    dsimp only at h
    by_cases hr : repl a d
    · rw [if_pos hr] at h
      exact ih d x y h (h3 a d y hr hy)
    · rw [if_neg hr] at h
      exact ih a x y h hy

theorem foldl_pickStep_all (repl)
    (h1 : ∀ a, repl a a = false)
    (h3 : ∀ e d y, repl e d = true → repl e y = false → repl d y = false) :
    ∀ (l : List DetectedFramework) (a x : DetectedFramework),
      l.foldl (pickStep repl) (some a) = some x →
      ∀ y ∈ l, repl x y = false := by
  intro l
  induction l with
  | nil => intro a x _ y hy; cases hy
  | cons d l ih =>
    intro a x h y hy
    rw [List.foldl_cons] at h
    unfold pickStep at h
    dsimp only at h
    by_cases hr : repl a d
    · rw [if_pos hr] at h
      rcases List.mem_cons.mp hy with hy | hy
      · subst hy
        exact foldl_pickStep_preserves repl h3 l y x y h (h1 y)
      · exact ih d x h y hy
    · rw [if_neg hr] at h
      rcases List.mem_cons.mp hy with hy | hy
      · subst hy
        exact foldl_pickStep_preserves repl h3 l a x y h
          (Bool.eq_false_iff.mpr hr)
      · exact ih a x h y hy

theorem foldl_pickStep_best (repl)
    (h1 : ∀ a, repl a a = false)
    (h3 : ∀ e d y, repl e d = true → repl e y = false → repl d y = false) :
    ∀ (l : List DetectedFramework) (x : DetectedFramework),
      l.foldl (pickStep repl) none = some x →
      ∀ y ∈ l, repl x y = false := by
  intro l x h y hy
  cases l with
  | nil => simp at h
  | cons d l =>
    rw [List.foldl_cons] at h
    have hstart : pickStep repl none d = some d := rfl
    rw [hstart] at h
    rcases List.mem_cons.mp hy with hy | hy
    · subst hy
      exact foldl_pickStep_preserves repl h3 l y x y h (h1 y)
    · exact foldl_pickStep_all repl h1 h3 l d x h y hy

theorem find?_of_mem_nodup :
    ∀ (m : List DetectedFramework) (x : DetectedFramework),
      (m.map (fun y => y.id)).Nodup → x ∈ m →
      m.find? (fun y => y.id = x.id) = some x := by
  intro m
  induction m with
  | nil => intro x _ hx; cases hx
  | cons a m ih =>
    intro x hnd hx
    rcases List.mem_cons.mp hx with hx | hx
    · subst hx
      rw [List.find?_cons_of_pos _ (by simp)]
    · simp only [List.map_cons, List.nodup_cons] at hnd
      have ha : a.id ≠ x.id := by
        intro hh
        exact hnd.1 (List.mem_map.mpr ⟨x, hx, hh.symm⟩)
      rw [List.find?_cons_of_neg _ (by simpa using ha)]
      exact ih x hnd.2 hx

theorem keyedDedup_spec (repl : DetectedFramework → DetectedFramework → Bool)
    (h1 : ∀ a, repl a a = false)
    (h3 : ∀ e d y, repl e d = true → repl e y = false → repl d y = false) :
    (∀ (ds : List DetectedFramework) (d : DetectedFramework),
      d ∈ ds.foldl (keyedStep repl) [] → d ∈ ds ∧
        ∀ d2 ∈ ds, d2.id = d.id → repl d d2 = false) ∧
    (∀ (ds : List DetectedFramework) (d2 : DetectedFramework), d2 ∈ ds →
      ∃ d ∈ ds.foldl (keyedStep repl) [], d.id = d2.id) ∧
    (∀ ds : List DetectedFramework,
      ((ds.foldl (keyedStep repl) []).map (fun x => x.id)).Nodup) := by
  refine ⟨?_, ?_, ?_⟩
  · intro ds d hd
    have hnodup := foldl_keyedStep_nodup repl ds [] (by simp)
    have hfind : (ds.foldl (keyedStep repl) []).find?
        (fun y => y.id = d.id) = some d :=
      find?_of_mem_nodup _ d hnodup hd
    rw [foldl_keyedStep_find? repl ds [] d.id] at hfind
    simp only [List.find?_nil] at hfind
    constructor
    · rcases foldl_pickStep_mem repl _ _ _ hfind with h | h
      · exact (List.mem_filter.mp h).1
      · cases h
    · intro d2 hd2 hid
      have hmemf : d2 ∈ ds.filter (fun x => x.id = d.id) :=
        List.mem_filter.mpr ⟨hd2, by simpa using hid⟩
      exact foldl_pickStep_best repl h1 h3 _ d hfind d2 hmemf
  · intro ds d2 hd2
    have hmemf : d2 ∈ ds.filter (fun x => x.id = d2.id) :=
      List.mem_filter.mpr ⟨hd2, by simp⟩
    obtain ⟨d3, l3, hl⟩ :=
      List.exists_cons_of_ne_nil (List.ne_nil_of_mem hmemf)
    have hsome : ((ds.filter (fun x => x.id = d2.id)).foldl
        (pickStep repl) none).isSome := by
      rw [hl, List.foldl_cons]
      have h0 : pickStep repl none d3 = some d3 := rfl
      rw [h0]
      exact foldl_pickStep_ne_none repl l3 d3
    obtain ⟨x, hx⟩ := Option.isSome_iff_exists.mp hsome
    have hfind : (ds.foldl (keyedStep repl) []).find?
        (fun y => y.id = d2.id) = some x := by
      rw [foldl_keyedStep_find? repl ds [] d2.id]
      simpa using hx
    refine ⟨x, List.mem_of_find?_eq_some hfind, ?_⟩
    have hp := List.find?_some hfind
    simpa using hp
  · intro ds
    exact foldl_keyedStep_nodup repl ds [] (by simp)

/-- Claim C7 counterexample: the claim states that detector deduplication
keeps the highest-confidence detection per id and breaks confidence ties
toward fewer path segments; but the java deduplication keeps the earlier
detection at confidence 0.85 over a later one at 0.9, and the node
deduplication resolves an exact confidence tie by keeping the earlier
detection although its path has more segments. -/
theorem c7_counterexample :
    javaDedup [exGradleNear, exGradleDeep] = [exGradleNear] ∧
    exGradleNear.confidence < exGradleDeep.confidence ∧
    nodeDedup [exReactDeep, exReactNear] = [exReactDeep] ∧
    exReactNear.confidence = exReactDeep.confidence ∧
    segCount exReactNear.detectedAt < segCount exReactDeep.detectedAt := by
  decide

/-- Claim C7 (amended): the node deduplication keeps, per framework id,
exactly one input detection whose confidence is maximal among that id
(path proximity plays no role, so equal confidences keep the earlier
detection); the java deduplication keeps, per id, exactly one input
detection whose source path has the fewest segments, ignoring confidence. -/
theorem c7_dedup_semantics :
    (∀ (ds : List DetectedFramework) (d : DetectedFramework),
      d ∈ nodeDedup ds → d ∈ ds ∧
        ∀ d2 ∈ ds, d2.id = d.id → d2.confidence ≤ d.confidence) ∧
    (∀ (ds : List DetectedFramework) (d2 : DetectedFramework), d2 ∈ ds →
      ∃ d ∈ nodeDedup ds, d.id = d2.id) ∧
    (∀ ds : List DetectedFramework,
      ((nodeDedup ds).map (fun x => x.id)).Nodup) ∧
    (∀ (ds : List DetectedFramework) (d : DetectedFramework),
      d ∈ javaDedup ds → d ∈ ds ∧
        ∀ d2 ∈ ds, d2.id = d.id →
          segCount d.detectedAt ≤ segCount d2.detectedAt) ∧
    (∀ (ds : List DetectedFramework) (d2 : DetectedFramework), d2 ∈ ds →
      ∃ d ∈ javaDedup ds, d.id = d2.id) ∧
    (∀ ds : List DetectedFramework,
      ((javaDedup ds).map (fun x => x.id)).Nodup) := by
  have hn := keyedDedup_spec nodeRepl
    (by intro a; simp [nodeRepl])
    (by
      intro e d y hed hey
      simp only [nodeRepl, decide_eq_true_eq] at hed
      simp only [nodeRepl, decide_eq_false_iff_not] at hey ⊢
      intro hdy
      exact hey (lt_trans hed hdy))
  have hj := keyedDedup_spec javaRepl
    (by intro a; simp [javaRepl])
    (by
      intro e d y hed hey
      simp only [javaRepl, decide_eq_true_eq] at hed
      simp only [javaRepl, decide_eq_false_iff_not] at hey ⊢
      intro hdy
      exact hey (lt_trans hdy hed))
  refine ⟨?_, hn.2.1, hn.2.2, ?_, hj.2.1, hj.2.2⟩
  · intro ds d hd
    obtain ⟨hmem, hbest⟩ := hn.1 ds d hd
    refine ⟨hmem, ?_⟩
    intro d2 hd2 hid
    have := hbest d2 hd2 hid
    simp only [nodeRepl, decide_eq_false_iff_not] at this
    exact not_lt.mp this
  · intro ds d hd
    obtain ⟨hmem, hbest⟩ := hj.1 ds d hd
    refine ⟨hmem, ?_⟩
    intro d2 hd2 hid
    have := hbest d2 hd2 hid
    simp only [javaRepl, decide_eq_false_iff_not] at this
    exact not_lt.mp this

/-- Witness for the amended claim C7 at the concrete gradle and react
detections. -/
theorem c7_dedup_semantics_witness :
    (exGradleNear ∈ [exGradleNear, exGradleDeep] ∧
      ∀ d2 ∈ [exGradleNear, exGradleDeep], d2.id = exGradleNear.id →
        segCount exGradleNear.detectedAt ≤ segCount d2.detectedAt) ∧
    (∃ d ∈ nodeDedup [exReactDeep, exReactNear], d.id = exReactDeep.id) :=
  ⟨c7_dedup_semantics.2.2.2.1 [exGradleNear, exGradleDeep] exGradleNear
     (by decide),
   c7_dedup_semantics.2.1 [exReactDeep, exReactNear] exReactDeep
     (by decide)⟩

/-! Claim C6: rule aggregation across detections. -/

theorem pushRules_eq :
    ∀ (rs : List GitIgnoreRule) (acc : List GitIgnoreRule)
      (seen : List (List Char)),
      pushRules (acc, seen) rs =
        (acc ++ dedupByPattern rs seen,
          seen ++ (dedupByPattern rs seen).map (fun r => r.pattern)) := by
  intro rs
  induction rs with
  | nil => intro acc seen; simp [pushRules, dedupByPattern]
  | cons r rs ih =>
    intro acc seen
    unfold pushRules at ih ⊢
    rw [List.foldl_cons]
    by_cases hm : r.pattern ∈ seen
    · rw [if_pos hm, ih]
      simp only [dedupByPattern]
      rw [if_pos hm]
    · rw [if_neg hm, ih]
      simp only [dedupByPattern]
      rw [if_neg hm]
      simp

theorem pushRules_append (st : List GitIgnoreRule × List (List Char))
    (a b : List GitIgnoreRule) :
    pushRules (pushRules st a) b = pushRules st (a ++ b) := by
  unfold pushRules
  rw [List.foldl_append]

theorem foldl_pushRules_flatMap (F : DetectedFramework → List GitIgnoreRule) :
    ∀ (dets : List DetectedFramework)
      (st : List GitIgnoreRule × List (List Char)),
      dets.foldl (fun st2 d => pushRules st2 (F d)) st =
        pushRules st (dets.flatMap F) := by
  intro dets
  induction dets with
  | nil => intro st; rfl
  | cons d dets ih =>
    intro st
    rw [List.foldl_cons, ih, pushRules_append]
    rfl

theorem getRulesForDetections_eq (cat : Catalog)
    (ds : List DetectedFramework) :
    getRulesForDetections cat ds = dedupByPattern (ruleStream cat ds) [] := by
  unfold getRulesForDetections ruleStream
  have hgroups : ∀ (gs : List (List Char × List DetectedFramework))
      (st : List GitIgnoreRule × List (List Char)),
      gs.foldl (fun st g =>
        g.2.foldl (fun st2 d => pushRules st2 (cat.frameworkRules g.1 d.id))
          (pushRules st (cat.baseRules g.1))) st =
        pushRules st (gs.flatMap (fun g =>
          cat.baseRules g.1 ++
            g.2.flatMap (fun d => cat.frameworkRules g.1 d.id))) := by
    intro gs
    induction gs with
    | nil => intro st; rfl
    | cons g gs ih =>
      intro st
      rw [List.foldl_cons, foldl_pushRules_flatMap, ih, pushRules_append,
        pushRules_append, List.flatMap_cons, List.append_assoc]
  rw [hgroups]
  rw [pushRules_eq]
  simp

theorem dedupByPattern_nodup :
    ∀ (rs : List GitIgnoreRule) (seen : List (List Char)),
      ((dedupByPattern rs seen).map (fun r => r.pattern)).Nodup ∧
        ∀ p ∈ (dedupByPattern rs seen).map (fun r => r.pattern), p ∉ seen := by
  intro rs
  induction rs with
  | nil => intro seen; simp [dedupByPattern]
  | cons r rs ih =>
    intro seen
    unfold dedupByPattern
    by_cases hm : r.pattern ∈ seen
    · rw [if_pos hm]
      exact ih seen
    · rw [if_neg hm]
      obtain ⟨ih1, ih2⟩ := ih (seen ++ [r.pattern])
      constructor
      · rw [List.map_cons, List.nodup_cons]
        refine ⟨?_, ih1⟩
        intro hmem
        have := ih2 _ hmem
        simp at this
      · intro p hp hpseen
        simp only [List.map_cons, List.mem_cons, List.mem_map] at hp
        rcases hp with hp2 | ⟨a, ha, hap⟩
        · exact hm (hp2 ▸ hpseen)
        · exact ih2 p (List.mem_map.mpr ⟨a, ha, hap⟩)
            (List.mem_append_left _ hpseen)

theorem dedupByPattern_find? :
    ∀ (rs : List GitIgnoreRule) (seen : List (List Char)) (φ : List Char),
      φ ∉ seen →
      (dedupByPattern rs seen).find? (fun r => r.pattern = φ) =
        rs.find? (fun r => r.pattern = φ) := by
  intro rs
  induction rs with
  | nil => intro seen φ _; rfl
  | cons r rs ih =>
    intro seen φ hφ
    unfold dedupByPattern
    by_cases hm : r.pattern ∈ seen
    · rw [if_pos hm]
      have hr : r.pattern ≠ φ := fun h => hφ (h ▸ hm)
      rw [List.find?_cons_of_neg _ (by simpa using hr)]
      exact ih seen φ hφ
    · rw [if_neg hm]
      by_cases hr : r.pattern = φ
      · rw [List.find?_cons_of_pos _ (by simpa using hr),
          List.find?_cons_of_pos _ (by simpa using hr)]
      · rw [List.find?_cons_of_neg _ (by simpa using hr),
          List.find?_cons_of_neg _ (by simpa using hr)]
        refine ih _ φ ?_
        intro hmem
        rcases List.mem_append.mp hmem with h | h
        · exact hφ h
        · exact hr (List.mem_singleton.mp h).symm

theorem groupByCategory_single (c : List Char) :
    ∀ (ds : List DetectedFramework), ds ≠ [] →
      (∀ d ∈ ds, d.ruleCategory = c) → groupByCategory ds = [(c, ds)] := by
  have aux : ∀ (ds : List DetectedFramework) (acc : List DetectedFramework),
      (∀ d ∈ ds, d.ruleCategory = c) →
      ds.foldl (fun m d =>
        if m.any (fun p => p.1 = d.ruleCategory) then
          m.map (fun p =>
            if p.1 = d.ruleCategory then (p.1, p.2 ++ [d]) else p)
        else m ++ [(d.ruleCategory, [d])]) [(c, acc)] = [(c, acc ++ ds)] := by
    intro ds
    induction ds with
    | nil => intro acc _; simp
    | cons d ds ih =>
      intro acc hds
      have hd : d.ruleCategory = c := hds d (List.mem_cons_self _ _)
      rw [List.foldl_cons]
      rw [if_pos (by simp [hd])]
      have hmap : [(c, acc)].map (fun p =>
          if p.1 = d.ruleCategory then (p.1, p.2 ++ [d]) else p) =
          [(c, acc ++ [d])] := by
        simp [hd]
      rw [hmap, ih (acc ++ [d]) (fun x hx => hds x (List.mem_cons_of_mem _ hx))]
      simp
  intro ds hne hds
  obtain ⟨d, rest, hrest⟩ := List.exists_cons_of_ne_nil hne
  subst hrest
  unfold groupByCategory
  rw [List.foldl_cons]
  have hd : d.ruleCategory = c := hds d (List.mem_cons_self _ _)
  rw [if_neg (by simp)]
  have h0 : ([] : List (List Char × List DetectedFramework)) ++
      [(d.ruleCategory, [d])] = [(c, [d])] := by simp [hd]
  rw [h0, aux rest [d] (fun x hx => hds x (List.mem_cons_of_mem _ hx))]
  simp

/-- Claim C6 counterexample: the claim states that a base rule always wins
over a framework rule with the same pattern; but with a catalog in which a
node framework rule and a python base rule share one pattern, and a node
detection grouped before the python detection, the aggregation emits the
framework rule and skips the base rule. -/
theorem c6_counterexample :
    getRulesForDetections exCatalog [exReactNear, exPythonDet] =
      [exFrameworkRuleX] ∧
    exBaseRuleX ∈ exCatalog.baseRules "python".data ∧
    exBaseRuleX.pattern = exFrameworkRuleX.pattern ∧
    exBaseRuleX ∉ getRulesForDetections exCatalog [exReactNear, exPythonDet]
    := by decide

/-- Claim C6 (amended): the aggregation equals first-occurrence
deduplication by pattern of the stream that lists, per ecosystem in order
of first detection, the base rules and then each detection's framework
rules; output patterns are pairwise distinct; the first rule of the
stream with a given pattern is the one kept; and when all detections
belong to one ecosystem, a base-rule pattern is always resolved to the
first base rule carrying it, so within one ecosystem a base rule beats a
framework rule with the same pattern, while across ecosystems whichever
rule the earlier-processed ecosystem emitted wins. -/
theorem c6_rule_aggregation :
    (∀ (cat : Catalog) (ds : List DetectedFramework),
      getRulesForDetections cat ds = dedupByPattern (ruleStream cat ds) []) ∧
    (∀ (cat : Catalog) (ds : List DetectedFramework),
      ((getRulesForDetections cat ds).map (fun r => r.pattern)).Nodup) ∧
    (∀ (cat : Catalog) (ds : List DetectedFramework) (φ : List Char),
      (getRulesForDetections cat ds).find? (fun r => r.pattern = φ) =
        (ruleStream cat ds).find? (fun r => r.pattern = φ)) ∧
    (∀ (cat : Catalog) (c : List Char) (ds : List DetectedFramework)
      (φ : List Char), ds ≠ [] → (∀ d ∈ ds, d.ruleCategory = c) →
      φ ∈ (cat.baseRules c).map (fun r => r.pattern) →
      (getRulesForDetections cat ds).find? (fun r => r.pattern = φ) =
        (cat.baseRules c).find? (fun r => r.pattern = φ)) := by
  refine ⟨getRulesForDetections_eq, ?_, ?_, ?_⟩
  · intro cat ds
    rw [getRulesForDetections_eq]
    exact (dedupByPattern_nodup _ _).1
  · intro cat ds φ
    rw [getRulesForDetections_eq]
    exact dedupByPattern_find? _ _ φ (by simp)
  · intro cat c ds φ hne hds hφ
    rw [getRulesForDetections_eq]
    rw [dedupByPattern_find? _ _ φ (by simp)]
    unfold ruleStream
    rw [groupByCategory_single c ds hne hds]
    simp only [List.flatMap_cons, List.flatMap_nil, List.append_nil]
    rw [List.find?_append]
    obtain ⟨r, hr, hrp⟩ := List.mem_map.mp hφ
    have hsome : ((cat.baseRules c).find?
        (fun r => r.pattern = φ)).isSome := by
      rw [List.find?_isSome]
      exact ⟨r, hr, by simpa using hrp⟩
    obtain ⟨x, hx⟩ := Option.isSome_iff_exists.mp hsome
    rw [hx]
    rfl

/-- Witness for the amended claim C6 at a single python detection and a
catalog whose python base rules carry the probed pattern. -/
theorem c6_rule_aggregation_witness :
    (getRulesForDetections exCatalog [exPythonDet]).find?
        (fun r => r.pattern = "x.txt".data) =
      (exCatalog.baseRules "python".data).find?
        (fun r => r.pattern = "x.txt".data) :=
  c6_rule_aggregation.2.2.2 exCatalog "python".data [exPythonDet]
    "x.txt".data (by decide) (by decide) (by decide)

/-! Claim C8: the next.js detection scenario. -/

/-- Claim C8 (confirmed): for a project whose only manifest is the root
package.json declaring the next dependency, with next.config.js present,
the node detector output includes the base node detection at confidence
0.8 (80 in the scaled model) and a nextjs detection at confidence exactly
1.0 (100, the 0.95 base plus the 0.05 config boost capped at one). -/
theorem c8_nextjs_detection :
    mkNodeDetection "node".data "Node.js".data "package.json".data 80 ∈
      nodeDetect [("package.json".data, some ["next".data])]
        (fun f => f = "next.config.js".data) ∧
    mkNodeDetection "nextjs".data "Next.js".data "package.json".data
        (min 100 (95 + 5)) ∈
      nodeDetect [("package.json".data, some ["next".data])]
        (fun f => f = "next.config.js".data) ∧
    min 100 (95 + 5) = 100 := by
  decide

end GitGuard
